import Mathlib

/-!
Verification of the AI-theme pipeline of the llm-chat-kit-experiments
repository: a shallow embedding of the CSS sanitizer, the theme prompt
response parser, the theme generation endpoint, the client theme
application service and the signal change-detection code, with theorems
checking the natural-language specification against this embedding.

Strings are modelled as `List Char`; JavaScript numbers that the code
compares and filters are modelled as `ℚ` (all values involved are exact).
-/

namespace ThemeKit

/-- ASCII lowercase fold, the case canonicalisation applied by the
case-insensitive (`i` flag) regexes of the sanitizer. -/
def lcAscii (c : Char) : Char :=
  if 65 ≤ c.toNat ∧ c.toNat ≤ 90 then Char.ofNat (c.toNat + 32) else c

/-- The JavaScript regex `\s` class (ECMAScript WhiteSpace and
LineTerminator code points). -/
def wsJS (c : Char) : Bool :=
  c.toNat == 32 || c.toNat == 9 || c.toNat == 10 ||
  c.toNat == 11 || c.toNat == 12 || c.toNat == 13 ||
  c.toNat == 0xa0 || c.toNat == 0x1680 ||
  (decide (0x2000 ≤ c.toNat) && decide (c.toNat ≤ 0x200a)) ||
  c.toNat == 0x2028 || c.toNat == 0x2029 || c.toNat == 0x202f ||
  c.toNat == 0x205f || c.toNat == 0x3000 || c.toNat == 0xfeff

/-- `String.prototype.trim`: strip leading and trailing whitespace. -/
def trimJS (s : List Char) : List Char :=
  ((s.dropWhile wsJS).reverse.dropWhile wsJS).reverse

/-- ASCII letter (the `[a-zA-Z]` regex class). -/
def asciiLetter (c : Char) : Bool :=
  (97 ≤ c.toNat && c.toNat ≤ 122) || (65 ≤ c.toNat && c.toNat ≤ 90)

/-- ASCII digit (the `\d` regex class). -/
def asciiDigit (c : Char) : Bool :=
  48 ≤ c.toNat && c.toNat ≤ 57

/-- The JavaScript regex `\w` class `[A-Za-z0-9_]`. -/
def wordChar (c : Char) : Bool :=
  asciiLetter c || asciiDigit c || c == '_'

/-- The `[\w-]` class used by the custom-property name pattern. -/
def wordDash (c : Char) : Bool :=
  wordChar c || c == '-'

/-- The left-brace character, kept out of string literals. -/
def lb : Char := Char.ofNat 0x7b

/-- The right-brace character, kept out of string literals. -/
def rb : Char := Char.ofNat 0x7d

-- =========================================================================
-- Signal model (src/unnamed/part_010: Theme Signals hook)
-- =========================================================================

/-- The five time-of-day periods of `TimeOfDaySignal`. -/
inductive TimeOfDayPeriod
  | morning
  | midday
  | afternoon
  | evening
  | night
deriving DecidableEq, Repr

/-- `TimeOfDaySignal.getPeriod`: bucket an hour (0–23) into a period. -/
def getPeriod (hour : Nat) : TimeOfDayPeriod :=
  if 6 ≤ hour ∧ hour < 12 then .morning
  else if 12 ≤ hour ∧ hour < 15 then .midday
  else if 15 ≤ hour ∧ hour < 18 then .afternoon
  else if 18 ≤ hour ∧ hour < 21 then .evening
  else .night

/-- The raw payload produced by the time-of-day signal. -/
structure TimeOfDayRaw where
  hour : Nat
  period : TimeOfDayPeriod
deriving DecidableEq, Repr

/-- A signal observation.  The `raw` field is `unknown` in the source; the
time-of-day signal stores a `TimeOfDayRaw` there (`some`), other signals
store payloads with no `period` field (`none`). -/
structure SignalValue where
  raw : Option TimeOfDayRaw
  normalized : ℚ
  label : String
deriving DecidableEq

/-- `hasTimeOfDayChanged`: significant iff the period stored in the raw
payload differs from the previous check; the first check (no previous
value) is always significant.  Reading `.period` off a payload that is not
a `TimeOfDayRaw` yields `undefined` in the source, modelled by
`Option.map` (two `undefined`s compare equal). -/
def hasTimeOfDayChanged (previous : Option SignalValue) (current : SignalValue) : Bool :=
  match previous with
  | none => true
  | some prev =>
      decide (prev.raw.map (·.period) ≠ current.raw.map (·.period))

/-- `hasSignificantChange`: dispatch on the signal id; unknown ids use the
`|prev.normalized - curr.normalized| > 0.1` threshold rule. -/
def hasSignificantChange (signalId : String) (previous : Option SignalValue)
    (current : SignalValue) : Bool :=
  if signalId = "time-of-day" then
    hasTimeOfDayChanged previous current
  else
    match previous with
    | none => true
    | some prev => decide (|prev.normalized - current.normalized| > 1/10)

/-- **C6** — The significant-change predicate: (1) the very first check of
any signal is significant; (2) for the time-of-day signal a check is
significant iff the period bucket differs from the previous check (and the
buckets place hour 5 in night, 6 and 11 in morning, 12 in midday, 17 in
afternoon, 20 in evening, 21 in night), never merely because the
normalized value differs; (3) for any unknown signal id a check is
significant iff `|prev.normalized - curr.normalized| > 0.1`. -/
theorem c6_significant_change_predicate :
    (∀ (id : String) (curr : SignalValue),
      hasSignificantChange id none curr = true) ∧
    (∀ (prev curr : SignalValue) (pr cr : TimeOfDayRaw),
      prev.raw = some pr → curr.raw = some cr →
      (hasSignificantChange "time-of-day" (some prev) curr = true ↔
        pr.period ≠ cr.period)) ∧
    (getPeriod 5 = .night ∧ getPeriod 6 = .morning ∧ getPeriod 11 = .morning ∧
      getPeriod 12 = .midday ∧ getPeriod 17 = .afternoon ∧
      getPeriod 20 = .evening ∧ getPeriod 21 = .night) ∧
    (∀ (id : String), id ≠ "time-of-day" → ∀ (prev curr : SignalValue),
      (hasSignificantChange id (some prev) curr = true ↔
        |prev.normalized - curr.normalized| > 1/10)) := by
  refine ⟨?_, ?_, ?_, ?_⟩
  · intro id curr
    by_cases h : id = "time-of-day" <;>
      simp [hasSignificantChange, h, hasTimeOfDayChanged]
  · intro prev curr pr cr hp hc
    simp [hasSignificantChange, hasTimeOfDayChanged, hp, hc]
  · refine ⟨rfl, rfl, rfl, rfl, rfl, rfl, rfl⟩
  · intro id hid prev curr
    simp [hasSignificantChange, hid]

/-- Witness for C6: evaluates the predicate at concrete inputs, discharging
each hypothesis. -/
theorem c6_significant_change_predicate_witness :
    hasSignificantChange "time-of-day"
      (some ⟨some ⟨11, getPeriod 11⟩, 11/24, "Morning (11am)"⟩)
      ⟨some ⟨13, getPeriod 13⟩, 13/24, "Midday (1pm)"⟩ = true ∧
    hasSignificantChange "weather"
      (some ⟨none, 0, "w0"⟩) ⟨none, 1/2, "w1"⟩ = true := by
  constructor
  · exact (c6_significant_change_predicate.2.1
      ⟨some ⟨11, getPeriod 11⟩, 11/24, "Morning (11am)"⟩
      ⟨some ⟨13, getPeriod 13⟩, 13/24, "Midday (1pm)"⟩
      ⟨11, getPeriod 11⟩ ⟨13, getPeriod 13⟩ rfl rfl).mpr (by decide)
  · refine (c6_significant_change_predicate.2.2.2 "weather" (by decide)
      ⟨none, 0, "w0"⟩ ⟨none, 1/2, "w1"⟩).mpr ?_
    show (1:ℚ)/10 < |(0:ℚ) - 1/2|
    rw [zero_sub, abs_neg, abs_of_nonneg (by norm_num : (0:ℚ) ≤ 1/2)]
    norm_num

-- =========================================================================
-- Client theme service (src/src/client/services/theme.ts)
-- =========================================================================

/-- A Google Font specification (`GoogleFontSpec` in the source); weights
are JavaScript numbers, modelled as `ℚ`. -/
structure GoogleFontSpec where
  family : String
  weights : List ℚ
deriving DecidableEq

/-- The slice of `GeneratedTheme` the application service reads. -/
structure GeneratedTheme where
  css : String
  fonts : List GoogleFontSpec
deriving DecidableEq

/-- Kind of an injected element. -/
inductive ETag
  | style
  | link
deriving DecidableEq

/-- A document element: its id, kind, and content (`textContent` for the
style element, `href` for the link element). -/
structure Elem where
  id : String
  tag : ETag
  content : String
deriving DecidableEq

/-- The document head, as the ordered list of its children. -/
abbrev Doc := List Elem

def THEME_STYLE_ID : String := "ai-generated-theme"

def GOOGLE_FONTS_LINK_ID : String := "ai-theme-google-fonts"

/-- `document.getElementById`: the first element with the given id. -/
def getElementById (d : Doc) (i : String) : Option Elem :=
  d.find? (fun e => e.id == i)

/-- `element.remove()` on the element found by id: drop the first element
with that id, if any. -/
def removeFirstById (i : String) : Doc → Doc
  | [] => []
  | e :: es => if e.id = i then es else e :: removeFirstById i es

/-- `removeThemeCSS`. -/
def removeThemeCSS (d : Doc) : Doc :=
  removeFirstById THEME_STYLE_ID d

/-- `removeGoogleFonts`. -/
def removeGoogleFonts (d : Doc) : Doc :=
  removeFirstById GOOGLE_FONTS_LINK_ID d

/-- `applyThemeCSS`: remove any existing theme style element, then append
a fresh one holding the CSS. -/
def applyThemeCSS (css : String) (d : Doc) : Doc :=
  removeThemeCSS d ++ [⟨THEME_STYLE_ID, .style, css⟩]

-- Google Fonts URL construction -------------------------------------------

/-- Characters `encodeURIComponent` leaves unescaped
(`A–Z a–z 0–9 - _ . ! ~ * ' ( )`). -/
def uriUnreserved (c : Char) : Bool :=
  asciiLetter c || asciiDigit c || c == '-' || c == '_' || c == '.' ||
  c == '!' || c == '~' || c == '*' || c.toNat == 39 ||
  c == '(' || c == ')'

/-- UTF-8 encoding of a scalar value. -/
def utf8Bytes (c : Char) : List Nat :=
  let n := c.toNat
  if n < 0x80 then [n]
  else if n < 0x800 then [0xc0 + n / 64, 0x80 + n % 64]
  else if n < 0x10000 then [0xe0 + n / 4096, 0x80 + n / 64 % 64, 0x80 + n % 64]
  else [0xf0 + n / 262144, 0x80 + n / 4096 % 64, 0x80 + n / 64 % 64, 0x80 + n % 64]

/-- Uppercase hexadecimal digit. -/
def hexUpper (n : Nat) : Char :=
  if n < 10 then Char.ofNat (48 + n) else Char.ofNat (55 + n)

/-- Percent-encoding of one byte, uppercase hex as `encodeURIComponent`
produces. -/
def pctEncodeByte (b : Nat) : List Char :=
  ['%', hexUpper (b / 16), hexUpper (b % 16)]

/-- `encodeURIComponent` (ECMAScript): unreserved characters kept,
everything else UTF-8 percent-encoded. -/
def encodeURIComponent (s : List Char) : List Char :=
  (s.map (fun c =>
    if uriUnreserved c then [c]
    else ((utf8Bytes c).map pctEncodeByte).flatten)).flatten

/-- `.replace(/%20/g, '+')`: global replacement of `%20` by `+`. -/
def replace20 : List Char → List Char
  | '%' :: '2' :: '0' :: rest => '+' :: replace20 rest
  | c :: rest => c :: replace20 rest
  | [] => []

/-- `Number.prototype.toString` as used for font weights; the pipeline
only ever formats integral values, rendered in decimal. -/
def jsNumToStr (q : ℚ) : List Char :=
  if q.den = 1 then (toString q.num).toList else (toString q).toList

/-- `buildGoogleFontsUrl`: per font, ascending-sorted weights joined with
`;`, URL-encoded family with `%20` rewritten to `+`; families joined with
`&` into the css2 URL. -/
def buildGoogleFontsUrl (fonts : List GoogleFontSpec) : List Char :=
  let families := fonts.map (fun font =>
    let weights := List.intercalate [';']
      ((font.weights.insertionSort (· ≤ ·)).map jsNumToStr)
    let family := replace20 (encodeURIComponent font.family.toList)
    "family=".toList ++ family ++ ":wght@".toList ++ weights)
  "https://fonts.googleapis.com/css2?".toList ++
    List.intercalate ['&'] families ++ "&display=swap".toList

/-- `loadGoogleFonts`: nothing to do on an empty list; else replace the
single fonts link element. -/
def loadGoogleFonts (fonts : List GoogleFontSpec) (d : Doc) : Doc :=
  if fonts = [] then d
  else
    removeGoogleFonts d ++
      [⟨GOOGLE_FONTS_LINK_ID, .link, String.mk (buildGoogleFontsUrl fonts)⟩]

/-- `applyTheme`: inject the CSS, then load fonts when present. -/
def applyTheme (t : GeneratedTheme) (d : Doc) : Doc :=
  if t.fonts ≠ [] then loadGoogleFonts t.fonts (applyThemeCSS t.css d)
  else applyThemeCSS t.css d

/-- `resetTheme`: remove the style element, then the fonts link. -/
def resetTheme (d : Doc) : Doc :=
  removeGoogleFonts (removeThemeCSS d)

/-- `getAppliedThemeCSS`: the style element's text, if the element exists. -/
def getAppliedThemeCSS (d : Doc) : Option String :=
  (getElementById d THEME_STYLE_ID).map (fun e => e.content)

/-- `previewTheme`: capture the currently applied CSS, apply the candidate,
and hand back the captured value that the returned revert closure uses. -/
def previewTheme (t : GeneratedTheme) (d : Doc) : Doc × Option String :=
  (applyTheme t d, getAppliedThemeCSS d)

/-- The revert closure returned by `previewTheme`: re-apply the captured
CSS when truthy (non-null, non-empty), else reset. -/
def revertPreview (prev : Option String) (d : Doc) : Doc :=
  match prev with
  | some css => if css ≠ "" then applyThemeCSS css d else resetTheme d
  | none => resetTheme d

-- Counting lemmas ----------------------------------------------------------

/-- Number of elements carrying a given id. -/
def cnt (i : String) : Doc → Nat
  | [] => 0
  | e :: es => (if e.id = i then 1 else 0) + cnt i es

/-- The uniqueness invariant: at most one theme style element and at most
one fonts link element. -/
def invDoc (d : Doc) : Prop :=
  cnt THEME_STYLE_ID d ≤ 1 ∧ cnt GOOGLE_FONTS_LINK_ID d ≤ 1

instance (d : Doc) : Decidable (invDoc d) := by
  unfold invDoc; infer_instance

theorem cnt_removeFirst_self (i : String) (d : Doc) :
    cnt i (removeFirstById i d) = cnt i d - 1 := by
  induction d with
  | nil => rfl
  | cons e es ih =>
      by_cases h : e.id = i
      · simp [removeFirstById, cnt, h]
      · simp only [removeFirstById, if_neg h, cnt, ih]
        omega

theorem cnt_removeFirst_other {i j : String} (h : j ≠ i) (d : Doc) :
    cnt j (removeFirstById i d) = cnt j d := by
  induction d with
  | nil => rfl
  | cons e es ih =>
      by_cases he : e.id = i
      · have hij : ¬ i = j := fun hh => h hh.symm
        simp [removeFirstById, cnt, he, hij]
      · simp [removeFirstById, cnt, he, ih]

theorem cnt_append_single (i : String) (d : Doc) (e : Elem) :
    cnt i (d ++ [e]) = cnt i d + (if e.id = i then 1 else 0) := by
  induction d with
  | nil => simp [cnt]
  | cons f fs ih =>
      rw [List.cons_append]
      show (if f.id = i then 1 else 0) + cnt i (fs ++ [e]) =
        ((if f.id = i then 1 else 0) + cnt i fs) + (if e.id = i then 1 else 0)
      rw [ih]
      omega

theorem cnt_removeFirst_le (i j : String) (d : Doc) :
    cnt j (removeFirstById i d) ≤ cnt j d := by
  by_cases h : j = i
  · subst h ; rw [cnt_removeFirst_self] ; omega
  · rw [cnt_removeFirst_other h]

theorem find_none_of_cnt_zero {i : String} {d : Doc} (h : cnt i d = 0) :
    getElementById d i = none := by
  induction d with
  | nil => rfl
  | cons e es ih =>
      by_cases he : e.id = i
      · simp [cnt, he] at h
      · simp [cnt, he] at h
        rw [getElementById, List.find?_cons_of_neg _ (by simp [he])]
        exact ih h

theorem find_append_last {i : String} {d : Doc} (e : Elem)
    (h : cnt i d = 0) (he : e.id = i) :
    getElementById (d ++ [e]) i = some e := by
  have h1 : List.find? (fun x => x.id == i) d = none := find_none_of_cnt_zero h
  rw [getElementById, List.find?_append, h1]
  simp [List.find?, he]

theorem find_removeFirst_other {i j : String} (h : j ≠ i) (d : Doc) :
    getElementById (removeFirstById i d) j = getElementById d j := by
  induction d with
  | nil => rfl
  | cons e es ih =>
      by_cases he : e.id = i
      · have hj : ¬ ((fun x : Elem => x.id == j) e : Bool) := by
          simp [he] ; exact fun hh => h hh.symm
        rw [removeFirstById, if_pos he]
        show getElementById es j = getElementById (e :: es) j
        rw [getElementById, getElementById, List.find?_cons_of_neg es hj]
      · rw [removeFirstById, if_neg he]
        by_cases hj : e.id = j
        · show getElementById (e :: removeFirstById i es) j = getElementById (e :: es) j
          rw [getElementById, getElementById,
            List.find?_cons_of_pos (removeFirstById i es) (p := fun x => x.id == j) (by simp [hj]),
            List.find?_cons_of_pos es (p := fun x => x.id == j) (by simp [hj])]
        · show getElementById (e :: removeFirstById i es) j = getElementById (e :: es) j
          rw [getElementById, getElementById,
            List.find?_cons_of_neg (removeFirstById i es) (p := fun x => x.id == j) (by simp [hj]),
            List.find?_cons_of_neg es (p := fun x => x.id == j) (by simp [hj])]
          exact ih

theorem ids_ne : GOOGLE_FONTS_LINK_ID ≠ THEME_STYLE_ID := by decide

-- Invariant preservation ---------------------------------------------------

theorem inv_applyThemeCSS {d : Doc} (h : invDoc d) (css : String) :
    invDoc (applyThemeCSS css d) := by
  obtain ⟨h1, h2⟩ := h
  constructor
  · rw [applyThemeCSS, removeThemeCSS, cnt_append_single,
      cnt_removeFirst_self]
    simp ; omega
  · rw [applyThemeCSS, removeThemeCSS, cnt_append_single,
      cnt_removeFirst_other ids_ne]
    simpa [ids_ne] using h2

theorem inv_loadGoogleFonts {d : Doc} (h : invDoc d)
    (fonts : List GoogleFontSpec) : invDoc (loadGoogleFonts fonts d) := by
  obtain ⟨h1, h2⟩ := h
  by_cases hf : fonts = []
  · simpa [loadGoogleFonts, hf] using ⟨h1, h2⟩
  · constructor
    · rw [loadGoogleFonts, if_neg hf, removeGoogleFonts, cnt_append_single,
        cnt_removeFirst_other (Ne.symm ids_ne)]
      simpa [Ne.symm ids_ne] using h1
    · rw [loadGoogleFonts, if_neg hf, removeGoogleFonts, cnt_append_single,
        cnt_removeFirst_self]
      simp ; omega

theorem inv_removeThemeCSS {d : Doc} (h : invDoc d) :
    invDoc (removeThemeCSS d) := by
  obtain ⟨h1, h2⟩ := h
  exact ⟨le_trans (cnt_removeFirst_le _ _ d) h1,
    le_trans (cnt_removeFirst_le _ _ d) h2⟩

theorem inv_removeGoogleFonts {d : Doc} (h : invDoc d) :
    invDoc (removeGoogleFonts d) := by
  obtain ⟨h1, h2⟩ := h
  exact ⟨le_trans (cnt_removeFirst_le _ _ d) h1,
    le_trans (cnt_removeFirst_le _ _ d) h2⟩

theorem inv_applyTheme {d : Doc} (h : invDoc d) (t : GeneratedTheme) :
    invDoc (applyTheme t d) := by
  rw [applyTheme]
  by_cases hf : t.fonts = []
  · rw [if_neg (by simp [hf])]
    exact inv_applyThemeCSS h t.css
  · rw [if_pos hf]
    exact inv_loadGoogleFonts (inv_applyThemeCSS h t.css) t.fonts

theorem inv_resetTheme {d : Doc} (h : invDoc d) : invDoc (resetTheme d) :=
  inv_removeGoogleFonts (inv_removeThemeCSS h)

theorem inv_revertPreview {d : Doc} (h : invDoc d) (prev : Option String) :
    invDoc (revertPreview prev d) := by
  match prev with
  | none => exact inv_resetTheme h
  | some css =>
      show invDoc (if css ≠ "" then applyThemeCSS css d else resetTheme d)
      by_cases hc : css = ""
      · rw [if_neg (by simp [hc])]
        exact inv_resetTheme h
      · rw [if_pos hc]
        exact inv_applyThemeCSS h css

-- Operation sequences ------------------------------------------------------

/-- The document-mutating operations of the theme service.  `preview`
applies the candidate; `revertOp` runs a revert closure captured earlier
(any such closure holds an `Option String`). -/
inductive ThemeOp
  | applyCSS (css : String)
  | loadFonts (fonts : List GoogleFontSpec)
  | applyFull (t : GeneratedTheme)
  | reset
  | preview (t : GeneratedTheme)
  | revertOp (prev : Option String)

/-- Effect of one operation on the document. -/
def stepOp : ThemeOp → Doc → Doc
  | .applyCSS css, d => applyThemeCSS css d
  | .loadFonts fonts, d => loadGoogleFonts fonts d
  | .applyFull t, d => applyTheme t d
  | .reset, d => resetTheme d
  | .preview t, d => (previewTheme t d).1
  | .revertOp prev, d => revertPreview prev d

/-- Run a sequence of operations. -/
def runOps : List ThemeOp → Doc → Doc
  | [], d => d
  | op :: ops, d => runOps ops (stepOp op d)

/-- **C4** — Every sequence of theme-service operations preserves the
invariant that at most one theme style element and at most one fonts link
element exist, because each apply removes any prior instance before
inserting. -/
theorem c4_at_most_one_theme_element (ops : List ThemeOp) (d : Doc)
    (h : invDoc d) : invDoc (runOps ops d) := by
  induction ops generalizing d with
  | nil => exact h
  | cons op ops ih =>
      refine ih (stepOp op d) ?_
      cases op with
      | applyCSS css => exact inv_applyThemeCSS h css
      | loadFonts fonts => exact inv_loadGoogleFonts h fonts
      | applyFull t => exact inv_applyTheme h t
      | reset => exact inv_resetTheme h
      | preview t => exact inv_applyTheme h t
      | revertOp prev => exact inv_revertPreview h prev

/-- Witness for C4 at a concrete operation sequence from the empty
document. -/
theorem c4_at_most_one_theme_element_witness :
    invDoc (runOps
      [.preview ⟨"--color-bg: #ffffff;", []⟩, .revertOp none,
        .applyFull ⟨"--color-fg: #000000;", [⟨"Inter", [400]⟩]⟩, .reset]
      []) :=
  c4_at_most_one_theme_element _ [] (by decide)

-- C5: preview / revert -----------------------------------------------------

theorem getApplied_applyThemeCSS {d : Doc} (h : cnt THEME_STYLE_ID d ≤ 1)
    (css : String) : getAppliedThemeCSS (applyThemeCSS css d) = some css := by
  have hz : cnt THEME_STYLE_ID (removeThemeCSS d) = 0 := by
    rw [removeThemeCSS, cnt_removeFirst_self] ; omega
  rw [getAppliedThemeCSS, applyThemeCSS,
    find_append_last _ hz rfl]
  rfl

theorem getApplied_resetTheme {d : Doc} (h : cnt THEME_STYLE_ID d ≤ 1) :
    getAppliedThemeCSS (resetTheme d) = none := by
  have hz : cnt THEME_STYLE_ID (removeThemeCSS d) = 0 := by
    rw [removeThemeCSS, cnt_removeFirst_self] ; omega
  rw [getAppliedThemeCSS, resetTheme, removeGoogleFonts,
    find_removeFirst_other (Ne.symm ids_ne), find_none_of_cnt_zero hz]
  rfl

/-- **C5 counterexample** — With a prior document whose theme style element
holds the empty string, preview followed by revert does not restore the
prior state: the captured empty string is falsy, so the revert closure
resets instead of re-applying, and the style element disappears. -/
theorem c5_counterexample :
    getAppliedThemeCSS
        (revertPreview
          (previewTheme ⟨"--color-bg: #ffffff;", []⟩
              [⟨THEME_STYLE_ID, .style, ""⟩]).2
          (previewTheme ⟨"--color-bg: #ffffff;", []⟩
              [⟨THEME_STYLE_ID, .style, ""⟩]).1) ≠
      getAppliedThemeCSS [⟨THEME_STYLE_ID, .style, ""⟩] := by
  decide

/-- **C5 (amended)** — For every candidate theme and every prior document
state satisfying the element-uniqueness invariant: if the CSS applied
before the preview was non-empty, the revert action restores exactly that
CSS text; if no theme was applied before the preview, or the applied CSS
text was the empty string (treated as Default by the falsy check), the
revert removes the style element. -/
theorem c5_preview_revert_restores (t : GeneratedTheme) (d : Doc)
    (hinv : invDoc d) :
    (∀ css : String, getAppliedThemeCSS d = some css → css ≠ "" →
      getAppliedThemeCSS
        (revertPreview (previewTheme t d).2 (previewTheme t d).1) = some css) ∧
    ((getAppliedThemeCSS d = none ∨ getAppliedThemeCSS d = some "") →
      getAppliedThemeCSS
        (revertPreview (previewTheme t d).2 (previewTheme t d).1) = none) := by
  have hinv1 : invDoc (applyTheme t d) := inv_applyTheme hinv t
  constructor
  · intro css hcss hne
    show getAppliedThemeCSS (revertPreview (getAppliedThemeCSS d) (applyTheme t d)) = some css
    rw [hcss]
    show getAppliedThemeCSS
        (if css ≠ "" then applyThemeCSS css (applyTheme t d)
          else resetTheme (applyTheme t d)) = some css
    rw [if_pos hne]
    exact getApplied_applyThemeCSS hinv1.1 css
  · intro hcase
    show getAppliedThemeCSS (revertPreview (getAppliedThemeCSS d) (applyTheme t d)) = none
    rcases hcase with hc | hc <;> rw [hc]
    · exact getApplied_resetTheme hinv1.1
    · show getAppliedThemeCSS
          (if ("" : String) ≠ "" then applyThemeCSS "" (applyTheme t d)
            else resetTheme (applyTheme t d)) = none
      rw [if_neg (by simp)]
      exact getApplied_resetTheme hinv1.1

/-- Witness for C5 (amended) at a concrete prior state with non-empty
applied CSS. -/
theorem c5_preview_revert_restores_witness :
    getAppliedThemeCSS
      (revertPreview
        (previewTheme ⟨"--color-bg: #123456;", []⟩
            [⟨THEME_STYLE_ID, .style, "--color-fg: #000000;"⟩]).2
        (previewTheme ⟨"--color-bg: #123456;", []⟩
            [⟨THEME_STYLE_ID, .style, "--color-fg: #000000;"⟩]).1) =
      some "--color-fg: #000000;" :=
  (c5_preview_revert_restores ⟨"--color-bg: #123456;", []⟩
      [⟨THEME_STYLE_ID, .style, "--color-fg: #000000;"⟩] (by decide)).1
    "--color-fg: #000000;" (by decide) (by decide)

-- =========================================================================
-- Font spec validation (src/src/server/lib/theme-prompts.ts,
-- validateFontSpecs)
-- =========================================================================

/-- A parsed JSON value as the `unknown`-typed entries of the fonts array:
only the type tests the code performs are distinguished. -/
inductive JVal
  | str (s : String)
  | num (q : ℚ)
  | arr (elems : List JVal)
  | other

/-- One entry of the parsed fonts array: either an object exposing both a
`family` and a `weights` member, or anything that fails that guard. -/
inductive FontCand
  | obj (family : JVal) (weights : JVal)
  | nonObj

/-- `family.replace(/[^a-zA-Z0-9\s-]/g, '')`. -/
def sanitizeFamily (s : List Char) : List Char :=
  s.filter (fun c => asciiLetter c || asciiDigit c || wsJS c || c == '-')

/-- `w % 100 === 0` for an exact JavaScript number: `w` is an integral
multiple of 100. -/
def isMult100 (q : ℚ) : Bool :=
  q.den == 1 && q.num % 100 == 0

/-- The `every` guard: `typeof w === 'number' && w >= 100 && w <= 900`. -/
def numWeightIn (v : JVal) : Bool :=
  match v with
  | .num q => decide (100 ≤ q ∧ q ≤ 900)
  | _ => false

/-- The weights filter `w >= 100 && w <= 900 && w % 100 === 0`. -/
def weightFilter (v : JVal) : Option ℚ :=
  match v with
  | .num q => if 100 ≤ q ∧ q ≤ 900 ∧ isMult100 q then some q else none
  | _ => none

/-- The accumulation loop of `validateFontSpecs`. -/
def validFontsAux : List FontCand → List GoogleFontSpec
  | [] => []
  | .nonObj :: rest => validFontsAux rest
  | .obj (.str s) (.arr l) :: rest =>
      if l.all numWeightIn then
        if 0 < (sanitizeFamily s.toList).length ∧
            (sanitizeFamily s.toList).length < 100 then
          ⟨String.mk (sanitizeFamily s.toList), l.filterMap weightFilter⟩ ::
            validFontsAux rest
        else validFontsAux rest
      else validFontsAux rest
  | .obj _ _ :: rest => validFontsAux rest

/-- `validateFontSpecs`: validate each entry, then truncate to at most two
font families. -/
def validateFontSpecs (fonts : List FontCand) : List GoogleFontSpec :=
  (validFontsAux fonts).take 2

theorem mult100_iff (q : ℚ) :
    isMult100 q = true ↔ ∃ k : ℤ, q = 100 * k := by
  rw [isMult100]
  simp only [Bool.and_eq_true, beq_iff_eq]
  constructor
  · rintro ⟨hden, hnum⟩
    obtain ⟨m, hm⟩ := Int.dvd_of_emod_eq_zero hnum
    refine ⟨m, ?_⟩
    have hq : ((q.num : ℚ)) = q := (Rat.den_eq_one_iff q).mp hden
    rw [← hq, hm]
    push_cast
    ring
  · rintro ⟨k, hk⟩
    have hcast : q = ((100 * k : ℤ) : ℚ) := by push_cast ; exact hk
    constructor
    · rw [hcast, Rat.den_intCast]
    · rw [hcast, Rat.num_intCast]
      omega

instance (q : ℚ) : Decidable (∃ k : ℤ, q = 100 * k) :=
  decidable_of_iff (isMult100 q = true) (mult100_iff q)

/-- The weight filter in the words of the amended claim: keep the weights
that are integral multiples of 100 within [100, 900]. -/
def specWeightFilter (v : JVal) : Option ℚ :=
  match v with
  | .num q =>
      if 100 ≤ q ∧ q ≤ 900 ∧ (∃ k : ℤ, q = 100 * k) then some q else none
  | _ => none

/-- The keep rule of the amended C8 claim, in the spec's words: an entry is
kept iff it is an object whose `family` is a string, whose `weights` is an
array of numbers all within [100, 900], and whose sanitized family name
has length between 1 and 99. -/
def keepSpec (f : FontCand) : Option GoogleFontSpec :=
  match f with
  | .obj (.str s) (.arr l) =>
      if l.all numWeightIn &&
          decide (1 ≤ (sanitizeFamily s.toList).length) &&
          decide ((sanitizeFamily s.toList).length ≤ 99) then
        some ⟨String.mk (sanitizeFamily s.toList), l.filterMap specWeightFilter⟩
      else none
  | _ => none

theorem weightFilter_eq_specFilter (v : JVal) :
    weightFilter v = specWeightFilter v := by
  match v with
  | .num q =>
      show (if 100 ≤ q ∧ q ≤ 900 ∧ isMult100 q then some q else none) =
        (if 100 ≤ q ∧ q ≤ 900 ∧ (∃ k : ℤ, q = 100 * k) then some q else none)
      by_cases h : 100 ≤ q ∧ q ≤ 900 ∧ isMult100 q
      · rw [if_pos h, if_pos ⟨h.1, h.2.1, (mult100_iff q).mp h.2.2⟩]
      · rw [if_neg h, if_neg (fun hc =>
          h ⟨hc.1, hc.2.1, (mult100_iff q).mpr hc.2.2⟩)]
  | .str s => rfl
  | .arr l => rfl
  | .other => rfl

/-- **C8 counterexample** — An entry whose family sanitizes to an in-range
name but whose weights contain a number outside [100, 900] is dropped
entirely by the code (the `every` guard fails), while the claim's keep
condition (family alone) would retain it. -/
theorem c8_counterexample :
    validateFontSpecs [.obj (.str "Inter") (.arr [.num 1000])] = [] ∧
    1 ≤ (sanitizeFamily "Inter".toList).length ∧
    (sanitizeFamily "Inter".toList).length ≤ 99 := by
  refine ⟨?_, by decide, by decide⟩
  have hfalse : numWeightIn (JVal.num 1000) = false := by
    rw [numWeightIn]
    simp only [decide_eq_false_iff_not, not_and]
    intro _
    norm_num
  simp [validateFontSpecs, validFontsAux, hfalse]

/-- **C8 (amended)** — A font entry is kept iff it is an object whose
family is a string, whose weights member is an array of numbers all within
[100, 900], and whose sanitized family (letters, digits, whitespace and
hyphens kept) has length between 1 and 99; each kept entry's weights are
filtered to the integral multiples of 100 within [100, 900]; the result is
truncated to at most 2 font families. -/
theorem c8_font_entry_validation (fonts : List FontCand) :
    validateFontSpecs fonts = (fonts.filterMap keepSpec).take 2 := by
  rw [validateFontSpecs]
  congr 1
  induction fonts with
  | nil => rfl
  | cons f rest ih =>
      match f with
      | .nonObj => simpa [validFontsAux, keepSpec] using ih
      | .obj (.str s) (.arr l) =>
          rw [validFontsAux, List.filterMap_cons]
          by_cases hall : l.all numWeightIn
          · by_cases hlen : 0 < (sanitizeFamily s.toList).length ∧
                (sanitizeFamily s.toList).length < 100
            · rw [if_pos hall, if_pos hlen]
              have hcond : (l.all numWeightIn &&
                  decide (1 ≤ (sanitizeFamily s.toList).length) &&
                  decide ((sanitizeFamily s.toList).length ≤ 99)) = true := by
                rw [hall]
                simp only [Bool.true_and, Bool.and_eq_true, decide_eq_true_eq]
                omega
              rw [keepSpec, if_pos hcond]
              rw [ih]
              congr 2
              exact List.filterMap_congr (fun v _ => weightFilter_eq_specFilter v)
            · rw [if_pos hall, if_neg hlen]
              have hcond : (l.all numWeightIn &&
                  decide (1 ≤ (sanitizeFamily s.toList).length) &&
                  decide ((sanitizeFamily s.toList).length ≤ 99)) = false := by
                rw [hall]
                simp only [Bool.true_and, Bool.and_eq_false_iff,
                  decide_eq_false_iff_not]
                omega
              rw [keepSpec, if_neg (by rw [hcond] ; exact Bool.false_ne_true)]
              exact ih
          · rw [if_neg hall]
            rw [Bool.not_eq_true] at hall
            rw [keepSpec, if_neg (by rw [hall] ; simp)]
            exact ih
      | .obj (.str s) (.num q) => simpa [validFontsAux, keepSpec] using ih
      | .obj (.str s) (.str t) => simpa [validFontsAux, keepSpec] using ih
      | .obj (.str s) .other => simpa [validFontsAux, keepSpec] using ih
      | .obj (.num q) w => simpa [validFontsAux, keepSpec] using ih
      | .obj (.arr l) w => simpa [validFontsAux, keepSpec] using ih
      | .obj .other w => simpa [validFontsAux, keepSpec] using ih

/-- Witness for C8 (amended): no hypotheses in the theorem itself, but
evaluated at a concrete list to tie it down. -/
theorem c8_font_entry_validation_witness :
    validateFontSpecs [.nonObj, .obj (.str "A!") (.arr [])] =
      (([.nonObj, .obj (.str "A!") (.arr [])] :
        List FontCand).filterMap keepSpec).take 2 :=
  c8_font_entry_validation [.nonObj, .obj (.str "A!") (.arr [])]

/-- **C10** — A font entry whose weights are all numbers within [100, 900]
but none an integral multiple of 100 is accepted with an empty weights
list, and the Google Fonts URL built for it has an empty weight list after
`wght@` (the `&display=swap` suffix follows immediately). -/
theorem c10_empty_weight_list_in_url (s : String) (qs : List ℚ)
    (hfam : 1 ≤ (sanitizeFamily s.toList).length ∧
      (sanitizeFamily s.toList).length ≤ 99)
    (hw : ∀ q ∈ qs, 100 ≤ q ∧ q ≤ 900 ∧ ¬ (∃ k : ℤ, q = 100 * k)) :
    validateFontSpecs [.obj (.str s) (.arr (qs.map JVal.num))] =
      [⟨String.mk (sanitizeFamily s.toList), []⟩] ∧
    buildGoogleFontsUrl
        (validateFontSpecs [.obj (.str s) (.arr (qs.map JVal.num))]) =
      "https://fonts.googleapis.com/css2?family=".toList ++
        replace20 (encodeURIComponent (sanitizeFamily s.toList)) ++
        ":wght@&display=swap".toList := by
  have hall : (qs.map JVal.num).all numWeightIn = true := by
    rw [List.all_eq_true]
    intro v hv
    obtain ⟨q, hq, rfl⟩ := List.mem_map.mp hv
    rw [numWeightIn]
    exact decide_eq_true ⟨(hw q hq).1, (hw q hq).2.1⟩
  have hfilter : (qs.map JVal.num).filterMap weightFilter = [] := by
    rw [List.filterMap_eq_nil_iff]
    intro v hv
    obtain ⟨q, hq, rfl⟩ := List.mem_map.mp hv
    show (if 100 ≤ q ∧ q ≤ 900 ∧ isMult100 q then some q else none) = none
    exact if_neg (fun hc => (hw q hq).2.2 ((mult100_iff q).mp hc.2.2))
  have hlen : 0 < (sanitizeFamily s.toList).length ∧
      (sanitizeFamily s.toList).length < 100 := ⟨by omega, by omega⟩
  have h1 : validateFontSpecs [.obj (.str s) (.arr (qs.map JVal.num))] =
      [⟨String.mk (sanitizeFamily s.toList), []⟩] := by
    rw [validateFontSpecs, validFontsAux, if_pos hall, if_pos hlen, hfilter]
    rfl
  refine ⟨h1, ?_⟩
  rw [h1]
  have hA : "https://fonts.googleapis.com/css2?".toList ++
      "family=".toList = "https://fonts.googleapis.com/css2?family=".toList := by
    decide
  have hC : ":wght@".toList ++ "&display=swap".toList =
      ":wght@&display=swap".toList := by decide
  show "https://fonts.googleapis.com/css2?".toList ++
      List.intercalate ['&']
        ["family=".toList ++
          replace20 (encodeURIComponent
            (String.mk (sanitizeFamily s.toList)).toList) ++
          ":wght@".toList ++
          List.intercalate [';']
            ((List.insertionSort (· ≤ ·) ([] : List ℚ)).map jsNumToStr)] ++
      "&display=swap".toList = _
  conv_rhs => rw [← hA, ← hC]
  simp [List.intercalate, List.intersperse, List.insertionSort,
    List.append_assoc]

/-- Witness for C10 at the family `Inter` with weights 150 and 250. -/
theorem c10_empty_weight_list_in_url_witness :
    validateFontSpecs [.obj (.str "Inter") (.arr (([150, 250] : List ℚ).map JVal.num))] =
      [⟨String.mk (sanitizeFamily "Inter".toList), []⟩] ∧
    buildGoogleFontsUrl
        (validateFontSpecs
          [.obj (.str "Inter") (.arr (([150, 250] : List ℚ).map JVal.num))]) =
      "https://fonts.googleapis.com/css2?family=".toList ++
        replace20 (encodeURIComponent (sanitizeFamily "Inter".toList)) ++
        ":wght@&display=swap".toList := by
  refine c10_empty_weight_list_in_url "Inter" [150, 250] (by decide) ?_
  intro q hq
  simp only [List.mem_cons, List.not_mem_nil, or_false] at hq
  rcases hq with rfl | rfl
  · refine ⟨by norm_num, by norm_num, ?_⟩
    rintro ⟨k, hk⟩
    have hz : (100 : ℤ) * k = 150 := by exact_mod_cast hk.symm
    omega
  · refine ⟨by norm_num, by norm_num, ?_⟩
    rintro ⟨k, hk⟩
    have hz : (100 : ℤ) * k = 250 := by exact_mod_cast hk.symm
    omega

-- =========================================================================
-- Dangerous-pattern matching (src/src/server/lib/css-sanitizer.ts,
-- DANGEROUS_PATTERNS / checkDangerousPatterns)
-- =========================================================================

/-- A dangerous regex of the sanitizer: every entry of the source's
`DANGEROUS_PATTERNS` has the shape `tok1` optionally followed by `\s*` and
a one-character `tok2` (`:` or `(`); `tok2 = []` encodes the pure-literal
patterns. -/
structure Pat where
  tok1 : List Char
  tok2 : List Char
deriving DecidableEq

/-- The ten `DANGEROUS_PATTERNS`, in source order, all carrying the `g`
and `i` flags. -/
def dangerousPatterns : List Pat :=
  [⟨"javascript".toList, [':']⟩,
   ⟨"expression".toList, ['(']⟩,
   ⟨"@import".toList, []⟩,
   ⟨"url".toList, ['(']⟩,
   ⟨"behavior".toList, [':']⟩,
   ⟨"-moz-binding".toList, []⟩,
   ⟨"data".toList, [':']⟩,
   ⟨"-o-link".toList, []⟩,
   ⟨"-o-link-source".toList, []⟩,
   ⟨"binding".toList, [':']⟩]

/-- The `source` text of a pattern, as interpolated into the error
message. -/
def patSource (p : Pat) : List Char :=
  if p.tok2 = [] then p.tok1
  else p.tok1 ++ ['\\', 's', '*'] ++
    (if p.tok2 = ['('] then ['\\', '('] else p.tok2)

/-- Case-insensitive prefix test: the pattern literal (stored lowercase)
against the head of the text. -/
def ciPfx : List Char → List Char → Bool
  | [], _ => true
  | _ :: _, [] => false
  | p :: ps, c :: cs => (lcAscii c == p) && ciPfx ps cs

/-- Match a pattern at the start of `s`: `tok1` case-insensitively, then a
greedy whitespace run, then `tok2`; returns the match length.  This is the
regex semantics: since `tok2` starts with a non-whitespace character, the
greedy `\s*` never backtracks. -/
def matchPatAt (p : Pat) (s : List Char) : Option Nat :=
  if ciPfx p.tok1 s then
    if p.tok2 = [] then some p.tok1.length
    else
      if ciPfx p.tok2 ((s.drop p.tok1.length).drop
          ((s.drop p.tok1.length).takeWhile wsJS).length) then
        some (p.tok1.length + ((s.drop p.tok1.length).takeWhile wsJS).length +
          p.tok2.length)
      else none
  else none

/-- Leftmost match: offset of the match start and its length. -/
def firstMatch (p : Pat) : List Char → Option (Nat × Nat)
  | [] =>
      match matchPatAt p [] with
      | some len => some (0, len)
      | none => none
  | c :: cs =>
      match matchPatAt p (c :: cs) with
      | some len => some (0, len)
      | none => (firstMatch p cs).map (fun r => (r.1 + 1, r.2))

/-- `RegExp.prototype.test` with the `g` flag: search from `lastIndex`; on
success advance `lastIndex` past the match, on failure reset it to 0. -/
def testG (p : Pat) (lastIndex : Nat) (s : List Char) : Bool × Nat :=
  match firstMatch p (s.drop lastIndex) with
  | some r => (true, lastIndex + r.1 + r.2)
  | none => (false, 0)

/-- The loop of `checkDangerousPatterns` over the patterns paired with
their module-level `lastIndex` states: returns the pattern that threw (if
any) and the updated states. -/
def checkLoop : List (Pat × Nat) → List Char → Option Pat × List Nat
  | [], _ => (none, [])
  | (p, li) :: rest, s =>
      if (testG p li s).1 then
        (some p, (testG p li s).2 :: rest.map (fun x => x.2))
      else
        ((checkLoop rest s).1, (testG p li s).2 :: (checkLoop rest s).2)

/-- The module-initial regex state: all `lastIndex`es are 0. -/
def initState : List Nat := List.replicate 10 0

/-- `checkDangerousPatterns`, with the shared mutable `lastIndex` state of
the module-level `g`-flagged regexes made explicit: `some p` means the
function threw on pattern `p`. -/
def checkDangerousPatternsSt (st : List Nat) (s : List Char) :
    Option Pat × List Nat :=
  checkLoop (dangerousPatterns.zip st) s

-- Specification-level occurrence predicates ---------------------------------

/-- Case-insensitive equality with a (lowercase) pattern literal. -/
def CiEq (pat t : List Char) : Prop := t.map lcAscii = pat

/-- All characters are JavaScript whitespace. -/
def AllWs (w : List Char) : Prop := ∀ c ∈ w, wsJS c = true

/-- A pattern matches at the very start of `s`. -/
def MatchesPfx (p : Pat) (s : List Char) : Prop :=
  ∃ t1 w t2 r, s = t1 ++ w ++ t2 ++ r ∧ CiEq p.tok1 t1 ∧ AllWs w ∧
    CiEq p.tok2 t2 ∧ (p.tok2 = [] → w = [])

/-- A pattern matches somewhere in `s`. -/
def OccursIn (p : Pat) (s : List Char) : Prop :=
  ∃ pre rest, s = pre ++ rest ∧ MatchesPfx p rest

/-- No dangerous pattern occurs in `s`. -/
def DangerFree (s : List Char) : Prop :=
  ∀ p ∈ dangerousPatterns, ¬ OccursIn p s

/-- Shape of the source patterns: `tok2` is empty, `:`, or `(`. -/
def PatWf (p : Pat) : Prop :=
  p.tok2 = [] ∨ p.tok2 = [':'] ∨ p.tok2 = ['(']

instance : DecidablePred PatWf := fun p => by unfold PatWf ; infer_instance

theorem dangerousPatterns_wf : ∀ p ∈ dangerousPatterns, PatWf p := by decide

theorem CiEq.len {pat t : List Char} (h : CiEq pat t) :
    t.length = pat.length := by
  rw [← h, List.length_map]

theorem lcAscii_ws {d : Char} (h : wsJS d = true) : lcAscii d = d := by
  have hn : ¬ (65 ≤ d.toNat ∧ d.toNat ≤ 90) := by
    simp only [wsJS, Bool.or_eq_true, beq_iff_eq, Bool.and_eq_true,
      decide_eq_true_eq] at h
    omega
  rw [lcAscii, if_neg hn]

theorem drop_takeWhile_len (q : Char → Bool) (l : List Char) :
    l.drop (l.takeWhile q).length = l.dropWhile q := by
  induction l with
  | nil => rfl
  | cons a as ih =>
      by_cases h : q a
      · simp [List.takeWhile_cons, List.dropWhile_cons, h, ih]
      · simp [List.takeWhile_cons, List.dropWhile_cons, h]

theorem ciPfx_of_ciEq {pat t : List Char} (h : CiEq pat t) (r : List Char) :
    ciPfx pat (t ++ r) = true := by
  rw [CiEq] at h
  subst h
  induction t with
  | nil => rfl
  | cons c cs ih =>
      show ((lcAscii c == lcAscii c) && ciPfx (cs.map lcAscii) (cs ++ r)) = true
      rw [ih]
      simp

theorem ciPfx_sound {pat s : List Char} (h : ciPfx pat s = true) :
    ∃ t r, s = t ++ r ∧ CiEq pat t := by
  induction pat generalizing s with
  | nil => exact ⟨[], s, rfl, rfl⟩
  | cons p ps ih =>
      match s with
      | [] => exact absurd h (by simp [ciPfx])
      | c :: cs =>
          rw [ciPfx, Bool.and_eq_true, beq_iff_eq] at h
          obtain ⟨t, r, hcs, ht⟩ := ih h.2
          exact ⟨c :: t, r, by rw [hcs] ; rfl,
            by rw [CiEq, List.map_cons, h.1, ht]⟩

theorem takeWhile_ws_decomp {w : List Char} (hw : AllWs w) {d : Char}
    (hd : wsJS d = false) (x : List Char) :
    (w ++ d :: x).takeWhile wsJS = w ∧ (w ++ d :: x).drop w.length = d :: x := by
  constructor
  · induction w with
    | nil => simp [List.takeWhile, hd]
    | cons a as ih =>
        have ha : wsJS a = true := hw a (by simp)
        simp only [List.cons_append, List.takeWhile_cons, ha, ite_true]
        rw [ih (fun c hc => hw c (by simp [hc]))]
  · rw [List.drop_left]

theorem matchPatAt_sound {p : Pat} {s : List Char} {len : Nat}
    (h : matchPatAt p s = some len) : MatchesPfx p s := by
  rw [matchPatAt] at h
  by_cases h1 : ciPfx p.tok1 s = true
  case neg => rw [if_neg h1] at h ; cases h
  rw [if_pos h1] at h
  obtain ⟨t1, r1, hs, ht1⟩ := ciPfx_sound h1
  by_cases h2 : p.tok2 = []
  · refine ⟨t1, [], [], r1, ?_, ht1, ?_, ?_, fun _ => rfl⟩
    · rw [hs] ; simp
    · intro c hc ; cases hc
    · rw [CiEq, h2] ; rfl
  · rw [if_neg h2] at h
    have hdrop : s.drop p.tok1.length = r1 := by
      rw [hs, ← ht1.len, List.drop_left]
    rw [hdrop] at h
    by_cases h3 : ciPfx p.tok2 (r1.drop (r1.takeWhile wsJS).length) = true
    case neg => rw [if_neg h3] at h ; cases h
    rw [drop_takeWhile_len] at h3
    obtain ⟨t2, r2, hsplit, ht2⟩ := ciPfx_sound h3
    have hr1 : r1 = r1.takeWhile wsJS ++ (t2 ++ r2) := by
      rw [← hsplit]
      exact (List.takeWhile_append_dropWhile (p := wsJS) (l := r1)).symm
    refine ⟨t1, r1.takeWhile wsJS, t2, r2, ?_, ht1, ?_, ht2,
      fun hc => absurd hc h2⟩
    · conv_lhs => rw [hs, hr1]
      simp [List.append_assoc]
    · intro c hc
      exact List.mem_takeWhile_imp hc

theorem matchPatAt_complete {p : Pat} {s : List Char} (hwf : PatWf p)
    (h : MatchesPfx p s) : (matchPatAt p s).isSome = true := by
  obtain ⟨t1, w, t2, r, hs, ht1, hw, ht2, hnil⟩ := h
  rw [matchPatAt]
  have hpfx : ciPfx p.tok1 s = true := by
    rw [hs, List.append_assoc, List.append_assoc]
    exact ciPfx_of_ciEq ht1 _
  rw [if_pos hpfx]
  by_cases h2 : p.tok2 = []
  · rw [if_pos h2] ; rfl
  · rw [if_neg h2]
    obtain hc2 : p.tok2 = [':'] ∨ p.tok2 = ['('] := hwf.resolve_left h2
    have hlen2 : t2.length = 1 := by
      rcases hc2 with hx | hx <;> rw [ht2.len, hx] <;> rfl
    obtain ⟨d, hd2⟩ := List.length_eq_one.mp hlen2
    subst hd2
    have hlc : lcAscii d ∈ p.tok2 := by
      rw [← ht2] ; simp
    have hdws : wsJS d = false := by
      cases hws : wsJS d
      · rfl
      · exfalso
        have hident := lcAscii_ws hws
        rw [hident] at hlc
        rcases hc2 with hx | hx <;> rw [hx] at hlc <;>
          simp only [List.mem_singleton] at hlc <;> subst hlc <;>
          exact absurd hws (by decide)
    have hdrop : s.drop p.tok1.length = w ++ [d] ++ r := by
      rw [hs, ← ht1.len]
      rw [show t1 ++ w ++ [d] ++ r = t1 ++ (w ++ [d] ++ r) by
        simp [List.append_assoc]]
      rw [List.drop_left]
    rw [hdrop]
    rw [show w ++ [d] ++ r = w ++ d :: r by simp]
    have hdec := takeWhile_ws_decomp hw hdws r
    rw [hdec.1, hdec.2]
    have hci : ciPfx p.tok2 (d :: r) = true := by
      have := @ciPfx_of_ciEq p.tok2 [d] ht2 r
      simpa using this
    rw [if_pos hci]
    rfl

theorem firstMatch_sound {p : Pat} {s : List Char} {off len : Nat}
    (h : firstMatch p s = some (off, len)) :
    ∃ pre rest, s = pre ++ rest ∧ matchPatAt p rest = some len := by
  induction s generalizing off with
  | nil =>
      cases hm : matchPatAt p [] with
      | some l =>
          simp only [firstMatch, hm, Option.some.injEq, Prod.mk.injEq] at h
          exact ⟨[], [], rfl, by rw [hm, h.2]⟩
      | none =>
          simp only [firstMatch, hm] at h
          exact Option.noConfusion h
  | cons c cs ih =>
      cases hm : matchPatAt p (c :: cs) with
      | some l =>
          simp only [firstMatch, hm, Option.some.injEq, Prod.mk.injEq] at h
          exact ⟨[], c :: cs, rfl, by rw [hm, h.2]⟩
      | none =>
          simp only [firstMatch, hm, Option.map_eq_some'] at h
          obtain ⟨⟨o2, l2⟩, hfm, heq⟩ := h
          simp only [Prod.mk.injEq] at heq
          obtain ⟨ho, hl⟩ := heq
          subst hl
          obtain ⟨pre, rest, hcs, hmr⟩ := ih hfm
          exact ⟨c :: pre, rest, by rw [hcs] ; rfl, hmr⟩

theorem firstMatch_none {p : Pat} {s : List Char}
    (h : firstMatch p s = none) :
    ∀ pre rest, s = pre ++ rest → matchPatAt p rest = none := by
  induction s with
  | nil =>
      intro pre rest hpr
      have h0 : rest = [] := by
        have h2 := hpr.symm
        rw [List.append_eq_nil] at h2
        exact h2.2
      subst h0
      cases hm : matchPatAt p [] with
      | none => rfl
      | some l =>
          simp only [firstMatch, hm] at h
          exact Option.noConfusion h
  | cons c cs ih =>
      intro pre rest hpr
      cases hm : matchPatAt p (c :: cs) with
      | some l =>
          simp only [firstMatch, hm] at h
          exact Option.noConfusion h
      | none =>
          simp only [firstMatch, hm, Option.map_eq_none'] at h
          cases pre with
          | nil =>
              simp only [List.nil_append] at hpr
              rw [← hpr]
              exact hm
          | cons a as =>
              injection hpr with h1 h2
              exact ih h as rest h2

theorem occursIn_iff_firstMatch {p : Pat} (hwf : PatWf p) (s : List Char) :
    OccursIn p s ↔ (firstMatch p s).isSome = true := by
  constructor
  · rintro ⟨pre, rest, hs, hm⟩
    cases hfm : firstMatch p s with
    | some r => rfl
    | none =>
        exfalso
        have hnone := firstMatch_none hfm pre rest hs
        have hsome := matchPatAt_complete hwf hm
        rw [hnone] at hsome
        exact absurd hsome (by simp)
  · intro hf
    cases hfm : firstMatch p s with
    | none => rw [hfm] at hf ; exact absurd hf (by simp)
    | some r =>
        obtain ⟨pre, rest, hs, hm⟩ := @firstMatch_sound p s r.1 r.2
          (by rw [hfm])
        exact ⟨pre, rest, hs, matchPatAt_sound hm⟩

-- Properties of the stateful check --------------------------------------

theorem testG_false_snd {p : Pat} {li : Nat} {s : List Char}
    (h : (testG p li s).1 = false) : (testG p li s).2 = 0 := by
  cases hfm : firstMatch p (s.drop li) with
  | none => simp [testG, hfm]
  | some r => simp [testG, hfm] at h

theorem checkLoop_none_iff (l : List (Pat × Nat)) (s : List Char) :
    (checkLoop l s).1 = none ↔ ∀ pr ∈ l, (testG pr.1 pr.2 s).1 = false := by
  induction l with
  | nil => simp [checkLoop]
  | cons pr rest ih =>
      obtain ⟨p, li⟩ := pr
      by_cases h : (testG p li s).1 = true
      · simp [checkLoop, h]
      · have hf : (testG p li s).1 = false := Bool.not_eq_true _ ▸ eq_false_of_ne_true h
        simp [checkLoop, hf, ih]

theorem checkLoop_snd_of_none {l : List (Pat × Nat)} {s : List Char}
    (h : (checkLoop l s).1 = none) :
    (checkLoop l s).2 = l.map (fun pr => (testG pr.1 pr.2 s).2) := by
  induction l with
  | nil => rfl
  | cons pr rest ih =>
      obtain ⟨p, li⟩ := pr
      by_cases hp : (testG p li s).1 = true
      · exfalso
        rw [checkLoop, if_pos hp] at h
        exact Option.noConfusion h
      · rw [checkLoop, if_neg hp] at h ⊢
        rw [List.map_cons]
        exact congrArg _ (ih h)

theorem zip_init :
    dangerousPatterns.zip initState =
      dangerousPatterns.map (fun p => (p, 0)) := by rfl

theorem checkSt_init_none_iff (s : List Char) :
    (checkDangerousPatternsSt initState s).1 = none ↔ DangerFree s := by
  rw [checkDangerousPatternsSt, checkLoop_none_iff, zip_init]
  constructor
  · intro h p hp
    have hz := h (p, 0) (List.mem_map_of_mem _ hp)
    intro hocc
    have hwf := dangerousPatterns_wf p hp
    have hsome := (occursIn_iff_firstMatch hwf s).mp hocc
    rw [testG, List.drop_zero] at hz
    cases hfm : firstMatch p s with
    | none => rw [hfm] at hsome ; exact absurd hsome (by simp)
    | some r => rw [hfm] at hz ; exact absurd hz (by simp)
  · intro h pr hpr
    obtain ⟨p, hp, rfl⟩ := List.mem_map.mp hpr
    have hwf := dangerousPatterns_wf p hp
    rw [testG, List.drop_zero]
    cases hfm : firstMatch p s with
    | none => rfl
    | some r =>
        exfalso
        exact h p hp ((occursIn_iff_firstMatch hwf s).mpr (by rw [hfm] ; rfl))

theorem checkSt_init_clean {s : List Char}
    (h : (checkDangerousPatternsSt initState s).1 = none) :
    (checkDangerousPatternsSt initState s).2 = initState := by
  rw [checkDangerousPatternsSt] at h ⊢
  rw [checkLoop_snd_of_none h]
  have hall := (checkLoop_none_iff _ s).mp h
  rw [show (List.map (fun pr => (testG pr.1 pr.2 s).2)
        (dangerousPatterns.zip initState)) =
      List.map (fun _ => 0) (dangerousPatterns.zip initState) from
    List.map_congr_left (fun pr hpr => testG_false_snd (hall pr hpr))]
  rfl

-- =========================================================================
-- Custom-property parsing (src/src/server/lib/css-sanitizer.ts,
-- parseCustomProperties)
-- =========================================================================

/-- Value part of the declaration regex after the `:`: greedy `\s*`, then
`([^;]+);` with the regex backtracking semantics.  Returns the captured
value and the rest of the text after the `;`. -/
def afterColon (r2 : List Char) : Option (List Char × List Char) :=
  match r2.dropWhile wsJS with
  | [] => none
  | c :: rest =>
      if c = ';' then
        if hw : r2.takeWhile wsJS = [] then none
        else some ([(r2.takeWhile wsJS).getLast hw], rest)
      else
        if (r2.dropWhile wsJS).dropWhile (fun d => !(d == ';')) = [] then none
        else
          some ((r2.dropWhile wsJS).takeWhile (fun d => !(d == ';')),
            ((r2.dropWhile wsJS).dropWhile (fun d => !(d == ';'))).tail)

/-- Match `(--[\w-]+)\s*:\s*([^;]+);` at the start of the text: returns
the captured property, the captured (untrimmed) value, and the rest after
the match. -/
def matchDeclAt (s : List Char) : Option (List Char × List Char × List Char) :=
  match s with
  | c1 :: c2 :: t =>
      if c1 = '-' ∧ c2 = '-' then
        if t.takeWhile wordDash = [] then none
        else
          match (t.dropWhile wordDash).dropWhile wsJS with
          | c3 :: r2 =>
              if c3 = ':' then
                match afterColon r2 with
                | some r => some ('-' :: '-' :: t.takeWhile wordDash, r.1, r.2)
                | none => none
              else none
          | [] => none
      else none
  | _ => none

theorem len_dropWhile_le (q : Char → Bool) (l : List Char) :
    (l.dropWhile q).length ≤ l.length := by
  induction l with
  | nil => exact Nat.le_refl _
  | cons a as ih =>
      by_cases h : q a
      · rw [List.dropWhile_cons_of_pos h]
        exact Nat.le_trans ih (by simp)
      · rw [List.dropWhile_cons_of_neg h]

theorem afterColon_rest_lt {r2 v rest : List Char}
    (h : afterColon r2 = some (v, rest)) : rest.length < r2.length + 1 := by
  cases hd : r2.dropWhile wsJS with
  | nil => simp [afterColon, hd] at h
  | cons c rest0 =>
      simp only [afterColon, hd] at h
      have hlen : rest0.length + 1 ≤ r2.length := by
        have hle := len_dropWhile_le wsJS r2
        rw [hd] at hle
        simpa using hle
      by_cases hc : c = ';'
      · rw [if_pos hc] at h
        by_cases hw : r2.takeWhile wsJS = []
        · rw [dif_pos hw] at h ; exact Option.noConfusion h
        · rw [dif_neg hw] at h
          injection h with h1
          injection h1 with h2 h3
          rw [← h3]
          omega
      · rw [if_neg hc] at h
        by_cases hz : List.dropWhile (fun d => !(d == ';')) (c :: rest0) = []
        · rw [if_pos hz] at h ; exact Option.noConfusion h
        · rw [if_neg hz] at h
          injection h with h1
          injection h1 with h2 h3
          have hd2 : (List.dropWhile (fun d => !(d == ';')) (c :: rest0)).length ≤
              rest0.length + 1 := by
            have hle := len_dropWhile_le (fun d => !(d == ';')) (c :: rest0)
            simpa using hle
          have htail : rest.length + 1 ≤
              (List.dropWhile (fun d => !(d == ';')) (c :: rest0)).length := by
            rw [← h3]
            cases hcase : List.dropWhile (fun d => !(d == ';')) (c :: rest0) with
            | nil => exact absurd hcase hz
            | cons x xs => simp
          omega

theorem matchDeclAt_rest_lt {s p v rest : List Char}
    (h : matchDeclAt s = some (p, v, rest)) : rest.length < s.length := by
  cases s with
  | nil => simp [matchDeclAt] at h
  | cons c1 s1 =>
      cases s1 with
      | nil => simp [matchDeclAt] at h
      | cons c2 t =>
          simp only [matchDeclAt] at h
          by_cases h12 : c1 = '-' ∧ c2 = '-'
          case neg => rw [if_neg h12] at h ; exact Option.noConfusion h
          rw [if_pos h12] at h
          by_cases h0 : t.takeWhile wordDash = []
          · rw [if_pos h0] at h ; exact Option.noConfusion h
          · rw [if_neg h0] at h
            cases hd : (t.dropWhile wordDash).dropWhile wsJS with
            | nil =>
                simp only [hd] at h
                exact Option.noConfusion h
            | cons c3 r2 =>
                simp only [hd] at h
                by_cases hc : c3 = ':'
                case neg => rw [if_neg hc] at h ; exact Option.noConfusion h
                rw [if_pos hc] at h
                cases hac : afterColon r2 with
                | none => rw [hac] at h ; exact Option.noConfusion h
                | some r =>
                    rw [hac] at h
                    injection h with h1
                    injection h1 with h2 h3
                    have hlt : r.2.length < r2.length + 1 :=
                      @afterColon_rest_lt r2 r.1 r.2 (by rw [hac])
                    have hr2 : r2.length + 1 ≤ t.length := by
                      have l1 := len_dropWhile_le wsJS (t.dropWhile wordDash)
                      have l2 := len_dropWhile_le wordDash t
                      rw [hd] at l1
                      simp only [List.length_cons] at l1
                      omega
                    have hre : rest.length = r.2.length := by
                      have := congrArg Prod.snd h3
                      simp at this
                      rw [this]
                    simp only [List.length_cons]
                    omega

/-- The global `exec` loop of `parseCustomProperties`: find the leftmost
match, emit the captured property and trimmed value, continue after the
match.  The loop consumes at least one character per iteration, so running
it with the input length as fuel computes the full scan. -/
def scanFuel : Nat → List Char → List (List Char × List Char)
  | 0, _ => []
  | _ + 1, [] => []
  | fuel + 1, c :: cs =>
      match matchDeclAt (c :: cs) with
      | some r => (r.1, trimJS r.2.1) :: scanFuel fuel r.2.2
      | none => scanFuel fuel cs

def scanDecls (s : List Char) : List (List Char × List Char) :=
  scanFuel s.length s

/-- `parseCustomProperties`: the ordered list of `(property, value)` pairs
(the unused `original` field is omitted; the property needs no trim since
the capture cannot contain whitespace). -/
def parseCustomProperties (s : List Char) : List (List Char × List Char) :=
  scanDecls s

-- =========================================================================
-- Value validators and the whitelist (src/src/server/lib/css-sanitizer.ts)
-- =========================================================================

def isHexDigit (c : Char) : Bool :=
  asciiDigit c || ('a' ≤ c && c ≤ 'f') || ('A' ≤ c && c ≤ 'F')

/-- `HEX_COLOR_PATTERN`: `#RGB`, `#RRGGBB`, or `#RRGGBBAA`. -/
def hexColorOk (v : List Char) : Bool :=
  match v with
  | '#' :: rest =>
      rest.all isHexDigit &&
        (rest.length == 3 || rest.length == 6 || rest.length == 8)
  | _ => false

def digitDot (c : Char) : Bool := asciiDigit c || c == '.'

def sizeSuffixOk (unit v : List Char) : Bool :=
  decide (unit.length < v.length) &&
    v.drop (v.length - unit.length) == unit &&
    (v.take (v.length - unit.length)).all digitDot

/-- `SIZE_PATTERN`: `^[\d.]+(?:rem|em|px)$`. -/
def sizeOk (v : List Char) : Bool :=
  sizeSuffixOk "rem".toList v || sizeSuffixOk "em".toList v ||
    sizeSuffixOk "px".toList v

/-- `FONT_WEIGHT_PATTERN`: `^[1-9]00$`. -/
def weightOk (v : List Char) : Bool :=
  match v with
  | [a, b, c] => ('1' ≤ a && a ≤ '9') && b == '0' && c == '0'
  | _ => false

/-- The `[a-zA-Z\s\-,'"]` class of `FONT_FAMILY_PATTERN`. -/
def familyChar (c : Char) : Bool :=
  asciiLetter c || wsJS c || c == '-' || c == ',' || c.toNat == 39 || c == '"'

/-- `FONT_FAMILY_PATTERN`: `^[a-zA-Z\s\-,'"]+$`. -/
def familyOk (v : List Char) : Bool :=
  !v.isEmpty && v.all familyChar

/-- The whitelist with the per-property validators: the source's
`ALLOWED_PROPERTIES` set and `PROPERTY_VALIDATORS` record share exactly
these keys, so membership and validator lookup use one table. -/
def PROPERTY_VALIDATORS : List (List Char × (List Char → Bool)) :=
  [("--color-bg".toList, hexColorOk),
   ("--color-fg".toList, hexColorOk),
   ("--color-border".toList, hexColorOk),
   ("--color-muted".toList, hexColorOk),
   ("--color-user-bg".toList, hexColorOk),
   ("--color-assistant-bg".toList, hexColorOk),
   ("--color-accent-blue".toList, hexColorOk),
   ("--color-accent-blue-light".toList, hexColorOk),
   ("--color-accent-orange".toList, hexColorOk),
   ("--color-accent-yellow".toList, hexColorOk),
   ("--font-family".toList, familyOk),
   ("--font-family-mono".toList, familyOk),
   ("--font-size-xs".toList, sizeOk),
   ("--font-size-sm".toList, sizeOk),
   ("--font-size-md".toList, sizeOk),
   ("--font-size-lg".toList, sizeOk),
   ("--font-size-xl".toList, sizeOk),
   ("--font-weight-normal".toList, weightOk),
   ("--font-weight-medium".toList, weightOk),
   ("--font-weight-semibold".toList, weightOk),
   ("--font-weight-bold".toList, weightOk)]

def msgNotWhitelist (prop : List Char) : List Char :=
  "Property \"".toList ++ prop ++ "\" is not in the whitelist".toList

def msgInvalidValue (prop v : List Char) : List Char :=
  "Invalid value \"".toList ++ v ++ "\" for property \"".toList ++ prop ++
    "\"".toList

/-- `validateProperty`: `null` (`none`) when valid, an error message
otherwise. -/
def validateProperty (prop v : List Char) : Option (List Char) :=
  match PROPERTY_VALIDATORS.find? (fun e => e.1 == prop) with
  | none => some (msgNotWhitelist prop)
  | some e => if e.2 v then none else some (msgInvalidValue prop v)

def msgForbidden (p : Pat) : List Char :=
  "CSS contains forbidden pattern: ".toList ++ patSource p

-- =========================================================================
-- sanitizeCSS / validateCSS / processCSSForTheme
-- =========================================================================

structure SanitizeResult where
  css : List Char
  removedProperties : List (List Char)
  sanitizedValues : List (List Char × List Char × List Char)
deriving DecidableEq

structure CSSValidationResult where
  valid : Bool
  warnings : List (List Char)
  errors : List (List Char)
deriving DecidableEq

/-- Rebuild the sanitized stylesheet: the surviving declarations wrapped
in a single `:root` block with two-space indentation, or the empty string
when nothing survived. -/
def rebuildCSS (pairs : List (List Char × List Char)) : List Char :=
  if pairs = [] then []
  else
    ":root ".toList ++ [lb, '\n'] ++
      List.intercalate ['\n']
        (pairs.map (fun pr => "  ".toList ++ pr.1 ++ ": ".toList ++ pr.2 ++ [';'])) ++
      ['\n', rb]

/-- The per-declaration loop and result assembly of `sanitizeCSS`. -/
def sanitizeCore (pairs : List (List Char × List Char)) : SanitizeResult :=
  { css := rebuildCSS (pairs.filter (fun pr => (validateProperty pr.1 pr.2).isNone))
    removedProperties :=
      (pairs.filter (fun pr => (validateProperty pr.1 pr.2).isSome)).map (fun pr => pr.1)
    sanitizedValues :=
      pairs.filterMap (fun pr =>
        (validateProperty pr.1 pr.2).map (fun e => (pr.1, pr.2, e))) }

/-- `sanitizeCSS` with the shared regex state made explicit: throws
(`Except.error`) exactly when `checkDangerousPatterns` throws. -/
def sanitizeCSSSt (st : List Nat) (s : List Char) :
    Except (List Char) SanitizeResult × List Nat :=
  match checkDangerousPatternsSt st s with
  | (some p, st2) => (Except.error (msgForbidden p), st2)
  | (none, st2) => (Except.ok (sanitizeCore (parseCustomProperties s)), st2)

/-- `validateCSS` with the shared regex state made explicit. -/
def validateCSSSt (st : List Nat) (s : List Char) :
    CSSValidationResult × List Nat :=
  match checkDangerousPatternsSt st s with
  | (some p, st2) => (⟨false, [], [msgForbidden p]⟩, st2)
  | (none, st2) =>
      (⟨((if s.count lb ≠ s.count rb then ["Unbalanced braces in CSS".toList] else []) ++
          (if s.count (Char.ofNat 39) % 2 ≠ 0 then ["Unclosed single quote in CSS".toList] else []) ++
          (if s.count '"' % 2 ≠ 0 then ["Unclosed double quote in CSS".toList] else [])).isEmpty,
        (if parseCustomProperties s = [] then ["No valid CSS custom properties found".toList] else []) ++
          (parseCustomProperties s).filterMap (fun pr => validateProperty pr.1 pr.2),
        (if s.count lb ≠ s.count rb then ["Unbalanced braces in CSS".toList] else []) ++
          (if s.count (Char.ofNat 39) % 2 ≠ 0 then ["Unclosed single quote in CSS".toList] else []) ++
          (if s.count '"' % 2 ≠ 0 then ["Unclosed double quote in CSS".toList] else [])⟩,
        st2)

/-- `processCSSForTheme`: `validateCSS` then `sanitizeCSS` on the same
input, threading the shared regex state; a throw from the sanitize step
escapes. -/
def processCSSForThemeSt (st : List Nat) (s : List Char) :
    Except (List Char) (List Char × CSSValidationResult × SanitizeResult) ×
      List Nat :=
  match validateCSSSt st s with
  | (validation, st2) =>
      match sanitizeCSSSt st2 s with
      | (Except.error e, st3) => (Except.error e, st3)
      | (Except.ok r, st3) => (Except.ok (r.css, validation, r), st3)

-- =========================================================================
-- C1: dangerous tokens are rejected outright
-- =========================================================================

/-- The tokens named by the claim: `javascript:`, `expression(`,
`@import`, `url(`, `behavior:`, the vendor-binding directive, `data:`. -/
def dangerTokens : List (List Char) :=
  ["javascript:".toList, "expression(".toList, "@import".toList,
   "url(".toList, "behavior:".toList, "-moz-binding".toList, "data:".toList]

/-- The claim's hypothesis: the input contains one of the dangerous tokens
case-insensitively, anywhere. -/
def HasDangerTok (s : List Char) : Prop :=
  ∃ tok ∈ dangerTokens, ∃ pre t post, s = pre ++ t ++ post ∧ CiEq tok t

instance (pat t : List Char) : Decidable (CiEq pat t) := by
  unfold CiEq ; infer_instance

theorem ciEq_append {a b t : List Char} (h : CiEq (a ++ b) t) :
    ∃ u v, t = u ++ v ∧ CiEq a u ∧ CiEq b v := by
  refine ⟨t.take a.length, t.drop a.length, (List.take_append_drop _ t).symm, ?_, ?_⟩
  · rw [CiEq, List.map_take, h]
    exact List.take_left a b
  · rw [CiEq, List.map_drop, h]
    exact List.drop_left a b

theorem occurs_of_token {p : Pat} {s pre t post : List Char}
    (hs : s = pre ++ t ++ post) (hci : CiEq (p.tok1 ++ p.tok2) t) :
    OccursIn p s := by
  obtain ⟨u, v, ht, hu, hv⟩ := ciEq_append hci
  refine ⟨pre, t ++ post, by rw [hs, List.append_assoc], ?_⟩
  refine ⟨u, [], v, post, ?_, hu, fun c hc => absurd hc (List.not_mem_nil c),
    hv, fun _ => rfl⟩
  rw [ht]
  simp

theorem hasTok_occurs {s : List Char} (h : HasDangerTok s) :
    ∃ p ∈ dangerousPatterns, OccursIn p s := by
  obtain ⟨tok, htok, pre, t, post, hs, hci⟩ := h
  fin_cases htok
  · exact ⟨⟨"javascript".toList, [':']⟩, by decide, occurs_of_token hs hci⟩
  · exact ⟨⟨"expression".toList, ['(']⟩, by decide, occurs_of_token hs hci⟩
  · exact ⟨⟨"@import".toList, []⟩, by decide, occurs_of_token hs (by simpa using hci)⟩
  · exact ⟨⟨"url".toList, ['(']⟩, by decide, occurs_of_token hs hci⟩
  · exact ⟨⟨"behavior".toList, [':']⟩, by decide, occurs_of_token hs hci⟩
  · exact ⟨⟨"-moz-binding".toList, []⟩, by decide, occurs_of_token hs (by simpa using hci)⟩
  · exact ⟨⟨"data".toList, [':']⟩, by decide, occurs_of_token hs hci⟩

/-- **C1** — If the input contains any dangerous token (case-insensitively,
anywhere), then from the initial regex state `checkDangerousPatterns`
throws, hence `sanitizeCSS` throws (no partial sanitization result is
produced) and `validateCSS` reports the CSS invalid. -/
theorem c1_dangerous_tokens_rejected (s : List Char) (h : HasDangerTok s) :
    (∃ p, (checkDangerousPatternsSt initState s).1 = some p) ∧
    (∃ e st2, sanitizeCSSSt initState s = (Except.error e, st2)) ∧
    (validateCSSSt initState s).1.valid = false := by
  have hocc := hasTok_occurs h
  have hnotfree : ¬ DangerFree s := by
    obtain ⟨p, hp, hoc⟩ := hocc
    intro hfree
    exact hfree p hp hoc
  have hne : (checkDangerousPatternsSt initState s).1 ≠ none := by
    intro hnone
    exact hnotfree ((checkSt_init_none_iff s).mp hnone)
  obtain ⟨p, hp⟩ := Option.ne_none_iff_exists'.mp hne
  have hpair : checkDangerousPatternsSt initState s =
      (some p, (checkDangerousPatternsSt initState s).2) := by
    exact Prod.ext hp rfl
  refine ⟨⟨p, hp⟩, ?_, ?_⟩
  · exact ⟨msgForbidden p, (checkDangerousPatternsSt initState s).2,
      by rw [sanitizeCSSSt, hpair]⟩
  · rw [validateCSSSt, hpair]

/-- Witness for C1: the token `javascript:` inside an otherwise plausible
stylesheet is rejected by all three functions. -/
theorem c1_dangerous_tokens_rejected_witness :
    (∃ p, (checkDangerousPatternsSt initState
      "--color-bg: #fff; background: JavaScript:alert(1)".toList).1 = some p) ∧
    (∃ e st2, sanitizeCSSSt initState
      "--color-bg: #fff; background: JavaScript:alert(1)".toList =
        (Except.error e, st2)) ∧
    (validateCSSSt initState
      "--color-bg: #fff; background: JavaScript:alert(1)".toList).1.valid =
      false :=
  c1_dangerous_tokens_rejected _
    ⟨"javascript:".toList, by decide,
      "--color-bg: #fff; background: ".toList, "JavaScript:".toList,
      "alert(1)".toList, by decide, by decide⟩

-- =========================================================================
-- C9: the check functions are not pure (shared g-flag regex state)
-- =========================================================================

/-- **C9 (code bug)** — `checkDangerousPatterns` is not pure: the
module-level `DANGEROUS_PATTERNS` regexes carry the `g` flag, so their
`lastIndex` persists between calls.  From the initial state a call on
`"javascript:"` throws (as documented); the immediately following call on
the very same input does not throw, because the stale `lastIndex` makes
the only occurrence invisible.  Two successive calls with the same input
thus produce different results, refuting the no-shared-mutable-state
claim. -/
theorem c9_check_not_pure :
    (checkDangerousPatternsSt initState "javascript:".toList).1 =
      some ⟨"javascript".toList, [':']⟩ ∧
    (checkDangerousPatternsSt
        (checkDangerousPatternsSt initState "javascript:".toList).2
        "javascript:".toList).1 = none := by
  constructor
  · rfl
  · rfl

-- =========================================================================
-- Infrastructure for the idempotence theorem (C2)
-- =========================================================================

theorem toNat_ofNat_small {n : Nat} (h1 : 97 ≤ n) (h2 : n ≤ 122) :
    (Char.ofNat n).toNat = n := by
  have hv : n.isValidChar := Or.inl (by omega)
  rw [Char.ofNat, dif_pos hv]
  show (UInt32.ofNatCore n _).toNat = n
  simp [UInt32.ofNatCore, UInt32.toNat, BitVec.toNat_ofNat]

theorem toNat_lcAscii (c : Char) :
    (lcAscii c).toNat =
      if 65 ≤ c.toNat ∧ c.toNat ≤ 90 then c.toNat + 32 else c.toNat := by
  rw [lcAscii]
  by_cases h : 65 ≤ c.toNat ∧ c.toNat ≤ 90
  · rw [if_pos h, if_pos h, toNat_ofNat_small (by omega) (by omega)]
  · rw [if_neg h, if_neg h]

theorem wsJS_iff (c : Char) :
    wsJS c = true ↔ (c.toNat = 32 ∨ c.toNat = 9 ∨ c.toNat = 10 ∨
      c.toNat = 11 ∨ c.toNat = 12 ∨ c.toNat = 13 ∨ c.toNat = 0xa0 ∨
      c.toNat = 0x1680 ∨ (0x2000 ≤ c.toNat ∧ c.toNat ≤ 0x200a) ∨
      c.toNat = 0x2028 ∨ c.toNat = 0x2029 ∨ c.toNat = 0x202f ∨
      c.toNat = 0x205f ∨ c.toNat = 0x3000 ∨ c.toNat = 0xfeff) := by
  simp only [wsJS, Bool.or_eq_true, Bool.and_eq_true, beq_iff_eq,
    decide_eq_true_eq]
  tauto

theorem wordDash_ranges {c : Char} (h : wordDash c = true) :
    (97 ≤ c.toNat ∧ c.toNat ≤ 122) ∨ (65 ≤ c.toNat ∧ c.toNat ≤ 90) ∨
    (48 ≤ c.toNat ∧ c.toNat ≤ 57) ∨ c.toNat = 95 ∨ c.toNat = 45 := by
  simp only [wordDash, wordChar, asciiLetter, asciiDigit, Bool.or_eq_true,
    Bool.and_eq_true, decide_eq_true_eq, beq_iff_eq] at h
  rcases h with (((h | h) | h) | h) | h
  · exact Or.inl h
  · exact Or.inr (Or.inl h)
  · exact Or.inr (Or.inr (Or.inl h))
  · refine Or.inr (Or.inr (Or.inr (Or.inl ?_)))
    rw [h] ; rfl
  · refine Or.inr (Or.inr (Or.inr (Or.inr ?_)))
    rw [h] ; rfl

theorem wordDash_not_ws {c : Char} (h : wordDash c = true) : wsJS c = false := by
  cases hw : wsJS c
  · rfl
  · exfalso
    have h1 := wordDash_ranges h
    have h2 := (wsJS_iff c).mp hw
    omega

theorem wordDash_lc_ne {c : Char} (h : wordDash c = true) :
    lcAscii c ≠ ':' ∧ lcAscii c ≠ '(' := by
  have h1 := wordDash_ranges h
  have h2 := toNat_lcAscii c
  have hnat : (lcAscii c).toNat ≠ 58 ∧ (lcAscii c).toNat ≠ 40 := by
    by_cases hcase : 65 ≤ c.toNat ∧ c.toNat ≤ 90
    · rw [if_pos hcase] at h2
      omega
    · rw [if_neg hcase] at h2
      omega
  constructor
  · intro hc
    have h3 := congrArg Char.toNat hc
    exact hnat.1 h3
  · intro hc
    have h3 := congrArg Char.toNat hc
    exact hnat.2 h3

-- Generic list helpers -----------------------------------------------------

theorem dropWhile_head_false {q : Char → Bool} {l : List Char} {c : Char}
    {t : List Char} (h : l.dropWhile q = c :: t) : q c = false := by
  induction l with
  | nil => exact absurd h (by simp)
  | cons a as ih =>
      by_cases ha : q a
      · rw [List.dropWhile_cons_of_pos ha] at h
        exact ih h
      · rw [List.dropWhile_cons_of_neg ha] at h
        injection h with h1 h2
        rw [← h1]
        exact Bool.eq_false_iff.mpr ha

theorem dropWhile_idem (q : Char → Bool) (l : List Char) :
    (l.dropWhile q).dropWhile q = l.dropWhile q := by
  cases hd : l.dropWhile q with
  | nil => rfl
  | cons c t =>
      rw [List.dropWhile_cons_of_neg]
      rw [dropWhile_head_false hd]
      exact Bool.false_ne_true

theorem dropWhile_suffix_decomp (q : Char → Bool) (l : List Char) :
    ∃ a, l = a ++ l.dropWhile q := by
  induction l with
  | nil => exact ⟨[], rfl⟩
  | cons c t ih =>
      by_cases hc : q c
      · obtain ⟨a, ha⟩ := ih
        exact ⟨c :: a, by rw [List.dropWhile_cons_of_pos hc, List.cons_append, ← ha]⟩
      · exact ⟨[], by rw [List.dropWhile_cons_of_neg hc] ; rfl⟩

theorem trimJS_decomp (u : List Char) : ∃ a b, u = a ++ trimJS u ++ b := by
  obtain ⟨a, ha⟩ := dropWhile_suffix_decomp wsJS u
  obtain ⟨b, hb⟩ := dropWhile_suffix_decomp wsJS (u.dropWhile wsJS).reverse
  refine ⟨a, b.reverse, ?_⟩
  have h2 : (u.dropWhile wsJS).reverse = b ++ (trimJS u).reverse := by
    rw [trimJS, List.reverse_reverse]
    exact hb
  have h3 := congrArg List.reverse h2
  rw [List.reverse_reverse, List.reverse_append, List.reverse_reverse] at h3
  rw [List.append_assoc, ← h3, ← ha]

theorem trimJS_dropWhile_fix (u : List Char) :
    (trimJS u).dropWhile wsJS = trimJS u := by
  cases he : (u.dropWhile wsJS).reverse.dropWhile wsJS with
  | nil => rw [trimJS, he] ; rfl
  | cons x xs =>
      rw [trimJS, he]
      cases hr : (x :: xs).reverse with
      | nil => exact absurd hr (by simp)
      | cons y ys =>
          obtain ⟨a2, ha2⟩ := dropWhile_suffix_decomp wsJS
            (u.dropWhile wsJS).reverse
          rw [he] at ha2
          have hd : u.dropWhile wsJS = y :: (ys ++ a2.reverse) := by
            conv_lhs => rw [← List.reverse_reverse (u.dropWhile wsJS), ha2]
            rw [List.reverse_append, hr, List.cons_append]
          have hidem := dropWhile_idem wsJS u
          rw [hd] at hidem
          have hy : wsJS y = false := dropWhile_head_false hidem
          rw [List.dropWhile_cons_of_neg (by simp [hy])]

theorem trimJS_idem (u : List Char) : trimJS (trimJS u) = trimJS u := by
  have h1 : (trimJS u).dropWhile wsJS = trimJS u := trimJS_dropWhile_fix u
  show (((trimJS u).dropWhile wsJS).reverse.dropWhile wsJS).reverse = trimJS u
  rw [h1]
  rw [show (trimJS u).reverse = (u.dropWhile wsJS).reverse.dropWhile wsJS from by
    rw [trimJS, List.reverse_reverse]]
  rw [dropWhile_idem]
  rw [trimJS]

-- Occurrence-position helpers ----------------------------------------------

theorem ciEq_single {c2 : Char} {t2 : List Char} (h : CiEq [c2] t2) :
    ∃ d, t2 = [d] ∧ lcAscii d = c2 := by
  cases t2 with
  | nil => exact absurd h (by simp [CiEq])
  | cons d rest =>
      rw [CiEq, List.map_cons] at h
      injection h with h1 h2
      exact ⟨d, by rw [List.map_eq_nil_iff] at h2 ; rw [h2], h1⟩

theorem mp_extend {p : Pat} {m : List Char} (h : MatchesPfx p m)
    (z : List Char) : MatchesPfx p (m ++ z) := by
  obtain ⟨t1, w, t2, r, hs, ht1, hw, ht2, hnil⟩ := h
  exact ⟨t1, w, t2, r ++ z, by rw [hs] ; simp [List.append_assoc], ht1, hw,
    ht2, hnil⟩

theorem mp_nil {p : Pat} (hne : p.tok1 ≠ []) : ¬ MatchesPfx p [] := by
  rintro ⟨t1, w, t2, r, hs, ht1, hw, ht2, hnil⟩
  have h1 : t1 = [] := by
    have := congrArg List.length hs
    simp at this
    exact List.length_eq_zero.mp (by omega)
  rw [h1] at ht1
  exact hne (by rw [← ht1] ; rfl)

theorem occursIn_nil {p : Pat} (hne : p.tok1 ≠ []) : ¬ OccursIn p [] := by
  rintro ⟨pre, rest, hs, hm⟩
  have hr : rest = [] := (List.append_eq_nil.mp hs.symm).2
  rw [hr] at hm
  exact mp_nil hne hm

theorem occursIn_cons_elim {p : Pat} {c : Char} {z : List Char}
    (h : OccursIn p (c :: z)) :
    MatchesPfx p (c :: z) ∨ OccursIn p z := by
  obtain ⟨pre, rest, hs, hm⟩ := h
  cases pre with
  | nil =>
      left
      rw [List.nil_append] at hs
      rw [hs]
      exact hm
  | cons d pre2 =>
      right
      rw [List.cons_append] at hs
      injection hs with h1 h2
      exact ⟨pre2, rest, h2, hm⟩

theorem occursIn_append_elim {p : Pat} {y : List Char} :
    ∀ {x : List Char}, OccursIn p (x ++ y) →
    (∃ n, n < x.length ∧ MatchesPfx p (x.drop n ++ y)) ∨ OccursIn p y := by
  intro x
  induction x with
  | nil =>
      intro h
      right
      rw [List.nil_append] at h
      exact h
  | cons c x2 ih =>
      intro h
      rw [List.cons_append] at h
      rcases occursIn_cons_elim h with hm | ho
      · left
        exact ⟨0, by simp, by rw [List.drop_zero, List.cons_append] ; exact hm⟩
      · rcases ih ho with ⟨n, hn, hm⟩ | hy
        · left
          refine ⟨n + 1, by simp ; omega, ?_⟩
          rw [List.drop_succ_cons]
          exact hm
        · right
          exact hy

theorem mp_head_lc {p : Pat} (hne : p.tok1 ≠ []) {c : Char} {z : List Char}
    (h : MatchesPfx p (c :: z)) : p.tok1.head? = some (lcAscii c) := by
  obtain ⟨t1, w, t2, r, hs, ht1, hw, ht2, hnil⟩ := h
  cases t1 with
  | nil =>
      exfalso
      exact hne (by rw [← ht1] ; rfl)
  | cons d t1' =>
      rw [List.cons_append, List.cons_append, List.cons_append] at hs
      injection hs with h1 h2
      rw [CiEq, List.map_cons] at ht1
      rw [← ht1, h1]
      rfl

-- Decidable pattern and whitelist facts -------------------------------------

/-- Character class of the lowered dangerous-token literals. -/
def AlphaTok (x : Char) : Prop :=
  (97 ≤ x.toNat ∧ x.toNat ≤ 122) ∨ x = '-' ∨ x = '@'

instance : DecidablePred AlphaTok := fun x => by unfold AlphaTok ; infer_instance

/-- Characters a dangerous match can consist of. -/
def PCh (c : Char) : Prop :=
  AlphaTok (lcAscii c) ∨ wsJS c = true ∨ lcAscii c = ':' ∨ lcAscii c = '('

instance : DecidablePred PCh := fun c => by unfold PCh ; infer_instance

theorem pats_tok1_ne : ∀ p ∈ dangerousPatterns, p.tok1 ≠ [] := by decide

theorem pats_tok1_alpha :
    ∀ p ∈ dangerousPatterns, ∀ x ∈ p.tok1, AlphaTok x := by decide

/-- None of the glue characters of the rebuilt stylesheet can start a
dangerous-token match. -/
theorem head_chk :
    ∀ p ∈ dangerousPatterns,
      ∀ c ∈ ([':', 'r', 'o', 't', ' ', lb, rb, '\n', ';'] : List Char),
        p.tok1.head? ≠ some (lcAscii c) := by decide

/-- The whitelist property names. -/
def allowedNames : List (List Char) := PROPERTY_VALIDATORS.map (fun e => e.1)

theorem names_wd : ∀ nm ∈ allowedNames, ∀ c ∈ nm, wordDash c = true := by
  decide

theorem names_shape :
    ∀ nm ∈ allowedNames, nm.take 2 = ['-', '-'] ∧ nm.drop 2 ≠ [] := by decide

set_option maxHeartbeats 2000000 in
/-- No dangerous pattern matches a suffix of a whitelisted property name
followed by a colon. -/
theorem name_chk :
    ∀ nm ∈ allowedNames, ∀ p ∈ dangerousPatterns,
      ∀ n, n ≤ nm.length → matchPatAt p (nm.drop n ++ [':']) = none := by
  decide

theorem no_match_head {p : Pat} (hp : p ∈ dangerousPatterns) {c : Char}
    (hc : c ∈ ([':', 'r', 'o', 't', ' ', lb, rb, '\n', ';'] : List Char))
    {z : List Char} : ¬ MatchesPfx p (c :: z) := fun hm =>
  head_chk p hp c hc (mp_head_lc (pats_tok1_ne p hp) hm)


-- Segment decompositions ----------------------------------------------------

/-- `t` occurs contiguously inside `s`. -/
def SegOf (t s : List Char) : Prop := ∃ x y, s = x ++ t ++ y

theorem segOf_trans {a b c : List Char} (h1 : SegOf a b) (h2 : SegOf b c) :
    SegOf a c := by
  obtain ⟨x1, y1, hb⟩ := h1
  obtain ⟨x2, y2, hc⟩ := h2
  exact ⟨x2 ++ x1, y1 ++ y2, by rw [hc, hb] ; simp [List.append_assoc]⟩

theorem occursIn_seg {p : Pat} {t s : List Char} (hseg : SegOf t s)
    (h : OccursIn p t) : OccursIn p s := by
  obtain ⟨x, y, hs⟩ := hseg
  obtain ⟨pre, rest, ht, hm⟩ := h
  exact ⟨x ++ pre, rest ++ y, by rw [hs, ht] ; simp [List.append_assoc],
    mp_extend hm y⟩

theorem dangerFree_seg {t s : List Char} (hseg : SegOf t s)
    (h : DangerFree s) : DangerFree t :=
  fun p hp ho => h p hp (occursIn_seg hseg ho)

-- Match confinement ---------------------------------------------------------

theorem split_stop {Q : Char → Prop} :
    ∀ {t r xs z : List Char} {b : Char},
      t ++ r = xs ++ b :: z → (∀ c ∈ t, Q c) → ¬ Q b →
      ∃ ys, xs = t ++ ys ∧ r = ys ++ b :: z := by
  intro t
  induction t with
  | nil =>
      intro r xs z b heq _ _
      rw [List.nil_append] at heq
      exact ⟨xs, rfl, heq⟩
  | cons c t ih =>
      intro r xs z b heq hT hb
      cases xs with
      | nil =>
          exfalso
          rw [List.cons_append, List.nil_append] at heq
          injection heq with h1 h2
          exact hb (h1 ▸ hT c (by simp))
      | cons x xs2 =>
          rw [List.cons_append, List.cons_append] at heq
          injection heq with h1 h2
          obtain ⟨ys, hxs, hr⟩ := ih h2 (fun d hd => hT d (by simp [hd])) hb
          refine ⟨ys, ?_, hr⟩
          rw [hxs, ← h1]
          rfl

/-- A match that runs into a stop character `b` (non-token, non-whitespace)
either lies entirely before `b` or consumes `b` as its `tok2`. -/
theorem mp_split {p : Pat} (hp : p ∈ dangerousPatterns) {xs z : List Char}
    {b : Char} (hbA : ¬ AlphaTok (lcAscii b)) (hbW : wsJS b = false)
    (hm : MatchesPfx p (xs ++ b :: z)) :
    MatchesPfx p xs ∨
      (p.tok2 = [lcAscii b] ∧ ∃ t1 w, xs = t1 ++ w ∧ CiEq p.tok1 t1 ∧ AllWs w) := by
  obtain ⟨t1, w, t2, r, hs, ht1, hw, ht2, hnil⟩ := hm
  have hT1 : ∀ c ∈ t1, AlphaTok (lcAscii c) := by
    intro c hc
    have hmem : lcAscii c ∈ p.tok1 := by
      rw [← ht1]
      exact List.mem_map_of_mem _ hc
    exact pats_tok1_alpha p hp _ hmem
  have heq1 : t1 ++ (w ++ t2 ++ r) = xs ++ b :: z := by
    rw [hs] ; simp [List.append_assoc]
  obtain ⟨ys1, hxs1, hr1⟩ := split_stop heq1 hT1 hbA
  have hbW2 : ¬ wsJS b = true := by rw [hbW] ; exact Bool.false_ne_true
  have heq2 : w ++ (t2 ++ r) = ys1 ++ b :: z := by
    rw [← hr1] ; simp [List.append_assoc]
  obtain ⟨ys2, hys1, hr2⟩ := split_stop heq2 hw hbW2
  rcases dangerousPatterns_wf p hp with h0 | h0 | h0
  · left
    have ht2e : t2 = [] := by
      have h3 : CiEq [] t2 := h0 ▸ ht2
      rw [CiEq, List.map_eq_nil_iff] at h3
      exact h3
    rw [ht2e, List.nil_append] at hr2
    refine ⟨t1, w, [], ys2, ?_, ht1, hw, by rw [CiEq, h0] ; rfl, hnil⟩
    rw [hxs1, hys1]
    simp [List.append_assoc]
  · obtain ⟨d, hd, hlc⟩ := ciEq_single (h0 ▸ ht2)
    rw [hd, List.cons_append] at hr2
    cases ys2 with
    | nil =>
        rw [List.nil_append] at hr2
        injection hr2 with h1 h2
        right
        refine ⟨?_, t1, w, ?_, ht1, hw⟩
        · rw [h0, ← h1, hlc]
        · rw [hxs1, hys1]
          simp
    | cons e ys3 =>
        left
        rw [List.cons_append] at hr2
        injection hr2 with h1 h2
        refine ⟨t1, w, [d], ys3, ?_, ht1, hw, by rw [← hd] ; exact ht2, hnil⟩
        rw [hxs1, hys1, h1]
        simp [List.append_assoc]
  · obtain ⟨d, hd, hlc⟩ := ciEq_single (h0 ▸ ht2)
    rw [hd, List.cons_append] at hr2
    cases ys2 with
    | nil =>
        rw [List.nil_append] at hr2
        injection hr2 with h1 h2
        right
        refine ⟨?_, t1, w, ?_, ht1, hw⟩
        · rw [h0, ← h1, hlc]
        · rw [hxs1, hys1]
          simp
    | cons e ys3 =>
        left
        rw [List.cons_append] at hr2
        injection hr2 with h1 h2
        refine ⟨t1, w, [d], ys3, ?_, ht1, hw, by rw [← hd] ; exact ht2, hnil⟩
        rw [hxs1, hys1, h1]
        simp [List.append_assoc]

theorem mp_stop {p : Pat} (hp : p ∈ dangerousPatterns) {xs z : List Char}
    {b : Char} (hbA : ¬ AlphaTok (lcAscii b)) (hbW : wsJS b = false)
    (hbC : lcAscii b ≠ ':') (hbP : lcAscii b ≠ '(')
    (hm : MatchesPfx p (xs ++ b :: z)) : MatchesPfx p xs := by
  rcases mp_split hp hbA hbW hm with h | ⟨h2, _⟩
  · exact h
  · exfalso
    rcases dangerousPatterns_wf p hp with h0 | h0 | h0 <;> rw [h0] at h2
    · exact List.noConfusion h2
    · injection h2 with h3 h4
      exact hbC h3.symm
    · injection h2 with h3 h4
      exact hbP h3.symm

theorem mp_stop_colon {p : Pat} (hp : p ∈ dangerousPatterns) {xs z : List Char}
    (hm : MatchesPfx p (xs ++ ':' :: z)) : MatchesPfx p (xs ++ [':']) := by
  have hbA : ¬ AlphaTok (lcAscii ':') := by decide
  have hbW : wsJS ':' = false := by decide
  rcases mp_split hp hbA hbW hm with h | ⟨h2, t1, w, hxs, ht1, hw⟩
  · exact mp_extend h [':']
  · refine ⟨t1, w, [':'], [], ?_, ht1, hw, ?_, ?_⟩
    · rw [hxs]
      simp [List.append_assoc]
    · rw [CiEq, h2]
      rfl
    · intro hc
      rw [hc] at h2
      exact absurd h2 (by simp)

theorem no_match_name {p : Pat} (hp : p ∈ dangerousPatterns) {nm z : List Char}
    (hnm : nm ∈ allowedNames) {n : Nat} (hn : n ≤ nm.length)
    (hm : MatchesPfx p (nm.drop n ++ ':' :: z)) : False := by
  have h2 := mp_stop_colon hp hm
  have h3 := matchPatAt_complete (dangerousPatterns_wf p hp) h2
  rw [name_chk nm hnm p hp n hn] at h3
  exact absurd h3 (by simp)

theorem no_match_value {p : Pat} (hp : p ∈ dangerousPatterns) {v z : List Char}
    (hv : ¬ OccursIn p v) {n : Nat}
    (hm : MatchesPfx p (v.drop n ++ ';' :: z)) : False := by
  have h2 := mp_stop hp (by decide) (by decide) (by decide) (by decide) hm
  exact hv ⟨v.take n, v.drop n, (List.take_append_drop n v).symm, h2⟩


-- Shape of the rebuilt stylesheet -------------------------------------------

/-- One rebuilt declaration line. -/
def lineOf (pr : List Char × List Char) : List Char :=
  "  ".toList ++ pr.1 ++ ": ".toList ++ pr.2 ++ [';']

/-- The text of the rebuilt stylesheet after the opening brace. -/
def linesGlue : List (List Char × List Char) → List Char
  | [] => ['\n', rb]
  | pr :: rest => '\n' :: (lineOf pr ++ linesGlue rest)

theorem glue_eq (rest : List (List Char × List Char)) :
    ∀ pr0, '\n' :: (List.intercalate ['\n'] ((pr0 :: rest).map
        (fun pr => "  ".toList ++ pr.1 ++ ": ".toList ++ pr.2 ++ [';'])) ++
      ['\n', rb]) = linesGlue (pr0 :: rest) := by
  induction rest with
  | nil =>
      intro pr0
      simp [linesGlue, lineOf, List.intercalate]
  | cons pr1 rest2 ih =>
      intro pr0
      have hstep : List.intercalate ['\n'] ((pr0 :: pr1 :: rest2).map
          (fun pr => "  ".toList ++ pr.1 ++ ": ".toList ++ pr.2 ++ [';'])) =
          ("  ".toList ++ pr0.1 ++ ": ".toList ++ pr0.2 ++ [';']) ++
            '\n' :: List.intercalate ['\n'] ((pr1 :: rest2).map
              (fun pr => "  ".toList ++ pr.1 ++ ": ".toList ++ pr.2 ++ [';'])) := by
        simp [List.intercalate, List.intersperse]
      rw [hstep]
      rw [show linesGlue (pr0 :: pr1 :: rest2) =
        '\n' :: (lineOf pr0 ++ linesGlue (pr1 :: rest2)) from rfl]
      rw [← ih pr1, lineOf]
      simp [List.append_assoc]

theorem rebuild_glue (pr0 : List Char × List Char)
    (rest : List (List Char × List Char)) :
    rebuildCSS (pr0 :: rest) =
      ':' :: 'r' :: 'o' :: 'o' :: 't' :: ' ' :: lb :: linesGlue (pr0 :: rest) := by
  rw [rebuildCSS, if_neg (by simp : ¬ (pr0 :: rest = []))]
  rw [← glue_eq rest pr0]
  simp [show ":root ".toList = [':', 'r', 'o', 'o', 't', ' '] from rfl,
    List.append_assoc]

-- Danger-freeness of the rebuilt stylesheet ---------------------------------

theorem glue_clean (pairs : List (List Char × List Char))
    (h : ∀ pr ∈ pairs, pr.1 ∈ allowedNames ∧ DangerFree pr.2) {p : Pat}
    (hp : p ∈ dangerousPatterns) : ¬ OccursIn p (linesGlue pairs) := by
  induction pairs with
  | nil =>
      intro ho
      rw [show linesGlue [] = '\n' :: [rb] from rfl] at ho
      rcases occursIn_cons_elim ho with hm | ho
      · exact no_match_head hp (by decide) hm
      rcases occursIn_cons_elim ho with hm | ho
      · exact no_match_head hp (by decide) hm
      exact occursIn_nil (pats_tok1_ne p hp) ho
  | cons pr rest ih =>
      intro ho
      have hshape : linesGlue (pr :: rest) =
          '\n' :: ' ' :: ' ' ::
            (pr.1 ++ ':' :: ' ' :: (pr.2 ++ ';' :: linesGlue rest)) := by
        rw [show linesGlue (pr :: rest) =
          '\n' :: (lineOf pr ++ linesGlue rest) from rfl, lineOf]
        simp [List.append_assoc]
      rw [hshape] at ho
      rcases occursIn_cons_elim ho with hm | ho
      · exact no_match_head hp (by decide) hm
      rcases occursIn_cons_elim ho with hm | ho
      · exact no_match_head hp (by decide) hm
      rcases occursIn_cons_elim ho with hm | ho
      · exact no_match_head hp (by decide) hm
      rcases occursIn_append_elim ho with ⟨n, hn, hm⟩ | ho
      · exact no_match_name hp (h pr (by simp)).1 (Nat.le_of_lt hn) hm
      rcases occursIn_cons_elim ho with hm | ho
      · exact no_match_head hp (by decide) hm
      rcases occursIn_cons_elim ho with hm | ho
      · exact no_match_head hp (by decide) hm
      rcases occursIn_append_elim ho with ⟨n, hn, hm⟩ | ho
      · exact no_match_value hp ((h pr (by simp)).2 p hp) hm
      rcases occursIn_cons_elim ho with hm | ho
      · exact no_match_head hp (by decide) hm
      exact ih (fun q hq => h q (by simp [hq])) ho

theorem rebuild_clean (pairs : List (List Char × List Char))
    (h : ∀ pr ∈ pairs, pr.1 ∈ allowedNames ∧ DangerFree pr.2) :
    DangerFree (rebuildCSS pairs) := by
  cases pairs with
  | nil =>
      intro p hp ho
      rw [show rebuildCSS [] = [] from rfl] at ho
      exact occursIn_nil (pats_tok1_ne p hp) ho
  | cons pr0 rest =>
      intro p hp ho
      rw [rebuild_glue] at ho
      rcases occursIn_cons_elim ho with hm | ho
      · exact no_match_head hp (by decide) hm
      rcases occursIn_cons_elim ho with hm | ho
      · exact no_match_head hp (by decide) hm
      rcases occursIn_cons_elim ho with hm | ho
      · exact no_match_head hp (by decide) hm
      rcases occursIn_cons_elim ho with hm | ho
      · exact no_match_head hp (by decide) hm
      rcases occursIn_cons_elim ho with hm | ho
      · exact no_match_head hp (by decide) hm
      rcases occursIn_cons_elim ho with hm | ho
      · exact no_match_head hp (by decide) hm
      rcases occursIn_cons_elim ho with hm | ho
      · exact no_match_head hp (by decide) hm
      exact glue_clean (pr0 :: rest) h hp ho


-- Unfolding equations of the declaration scan -------------------------------

theorem scanFuel_irrel :
    ∀ (f1 f2 : Nat) (s : List Char), s.length ≤ f1 → s.length ≤ f2 →
      scanFuel f1 s = scanFuel f2 s := by
  intro f1
  induction f1 with
  | zero =>
      intro f2 s h1 h2
      have hs : s = [] := List.length_eq_zero.mp (Nat.le_zero.mp h1)
      subst hs
      cases f2 with
      | zero => rfl
      | succ g => rfl
  | succ f ih =>
      intro f2 s h1 h2
      cases s with
      | nil =>
          cases f2 with
          | zero => rfl
          | succ g => rfl
      | cons c cs =>
          cases f2 with
          | zero => exact absurd h2 (by simp)
          | succ g =>
              simp only [List.length_cons] at h1 h2
              cases hm : matchDeclAt (c :: cs) with
              | some r =>
                  obtain ⟨nm, v, rest⟩ := r
                  have hlt : rest.length < cs.length + 1 :=
                    matchDeclAt_rest_lt hm
                  simp only [scanFuel, hm]
                  rw [ih g rest (by omega) (by omega)]
              | none =>
                  simp only [scanFuel, hm]
                  exact ih g cs (by omega) (by omega)

theorem scanDecls_nil : scanDecls [] = [] := rfl

theorem scanDecls_cons_none {c : Char} {cs : List Char}
    (h : matchDeclAt (c :: cs) = none) : scanDecls (c :: cs) = scanDecls cs := by
  rw [scanDecls, scanDecls, List.length_cons]
  simp only [scanFuel, h]

theorem scanDecls_cons_some {c : Char} {cs nm v rest : List Char}
    (h : matchDeclAt (c :: cs) = some (nm, v, rest)) :
    scanDecls (c :: cs) = (nm, trimJS v) :: scanDecls rest := by
  have hlt : rest.length < cs.length + 1 := matchDeclAt_rest_lt h
  rw [scanDecls, scanDecls, List.length_cons]
  simp only [scanFuel, h]
  rw [scanFuel_irrel cs.length rest.length rest (by omega) (by omega)]

-- Facts about the scan output -----------------------------------------------

theorem afterColon_out {r2 v rest : List Char}
    (h : afterColon r2 = some (v, rest)) :
    (∀ c ∈ v, ¬ c = ';') ∧ SegOf v r2 ∧ ∃ x, r2 = x ++ rest := by
  cases hd : r2.dropWhile wsJS with
  | nil => simp [afterColon, hd] at h
  | cons c rest0 =>
      simp only [afterColon, hd] at h
      obtain ⟨a0, ha0⟩ := dropWhile_suffix_decomp wsJS r2
      have hsplit : r2 = r2.takeWhile wsJS ++ (c :: rest0) := by
        rw [← hd]
        exact (List.takeWhile_append_dropWhile (p := wsJS) (l := r2)).symm
      by_cases hc : c = ';'
      · rw [if_pos hc] at h
        by_cases hw : r2.takeWhile wsJS = []
        · rw [dif_pos hw] at h
          exact Option.noConfusion h
        · rw [dif_neg hw] at h
          injection h with h1
          injection h1 with h2 h3
          refine ⟨?_, ?_, ?_⟩
          · intro ch hch
            rw [← h2] at hch
            have hg : ch = (r2.takeWhile wsJS).getLast hw := by
              simpa using hch
            have hmem : ch ∈ r2.takeWhile wsJS := by
              rw [hg]
              exact List.getLast_mem hw
            have hws : wsJS ch = true := List.mem_takeWhile_imp hmem
            intro hcsemi
            rw [hcsemi] at hws
            exact absurd hws (by decide)
          · refine ⟨(r2.takeWhile wsJS).dropLast, c :: rest0, ?_⟩
            rw [← h2]
            conv_lhs => rw [hsplit]
            rw [List.dropLast_append_getLast hw]
          · refine ⟨r2.takeWhile wsJS ++ [c], ?_⟩
            rw [← h3]
            conv_lhs => rw [hsplit]
            simp
      · rw [if_neg hc] at h
        by_cases hz : List.dropWhile (fun d => !(d == ';')) (c :: rest0) = []
        · rw [if_pos hz] at h
          exact Option.noConfusion h
        · rw [if_neg hz] at h
          injection h with h1
          injection h1 with h2 h3
          cases hdz : List.dropWhile (fun d => !(d == ';')) (c :: rest0) with
          | nil => exact absurd hdz hz
          | cons e tl =>
              refine ⟨?_, ?_, ?_⟩
              · intro ch hch
                rw [← h2] at hch
                have := List.mem_takeWhile_imp hch
                simpa using this
              · refine ⟨a0, List.dropWhile (fun d => !(d == ';')) (c :: rest0), ?_⟩
                rw [← h2]
                conv_lhs => rw [ha0, hd]
                rw [List.append_assoc, List.takeWhile_append_dropWhile]
              · refine ⟨a0 ++ v ++ [e], ?_⟩
                have htl : rest = tl := by
                  rw [← h3, hdz]
                  rfl
                conv_lhs => rw [ha0, hd]
                rw [← List.takeWhile_append_dropWhile
                  (p := fun d => !(d == ';')) (l := c :: rest0)]
                rw [hdz, ← h2, htl]
                simp [List.append_assoc]

theorem matchDeclAt_out {s nm vraw rest : List Char}
    (h : matchDeclAt s = some (nm, vraw, rest)) :
    (∀ c ∈ vraw, ¬ c = ';') ∧ SegOf vraw s ∧ ∃ x, s = x ++ rest := by
  cases s with
  | nil => simp [matchDeclAt] at h
  | cons c1 s1 =>
      cases s1 with
      | nil => simp [matchDeclAt] at h
      | cons c2 t =>
          simp only [matchDeclAt] at h
          by_cases h12 : c1 = '-' ∧ c2 = '-'
          case neg => rw [if_neg h12] at h ; exact Option.noConfusion h
          rw [if_pos h12] at h
          by_cases h0 : t.takeWhile wordDash = []
          · rw [if_pos h0] at h ; exact Option.noConfusion h
          · rw [if_neg h0] at h
            cases hd : (t.dropWhile wordDash).dropWhile wsJS with
            | nil =>
                simp only [hd] at h
                exact Option.noConfusion h
            | cons c3 r2 =>
                simp only [hd] at h
                by_cases hc : c3 = ':'
                case neg => rw [if_neg hc] at h ; exact Option.noConfusion h
                rw [if_pos hc] at h
                cases hac : afterColon r2 with
                | none => rw [hac] at h ; exact Option.noConfusion h
                | some r =>
                    rw [hac] at h
                    injection h with h1
                    injection h1 with h2 h3
                    obtain ⟨hv, hrest⟩ : r.1 = vraw ∧ r.2 = rest := by
                      constructor
                      · exact congrArg Prod.fst h3
                      · exact congrArg Prod.snd h3
                    have hout := @afterColon_out r2 r.1 r.2 (by rw [hac])
                    rw [hv, hrest] at hout
                    obtain ⟨ha1, ha1'⟩ := dropWhile_suffix_decomp wordDash t
                    obtain ⟨ha2, ha2'⟩ := dropWhile_suffix_decomp wsJS
                      (t.dropWhile wordDash)
                    have hr2 : t = ha1 ++ ha2 ++ [c3] ++ r2 := by
                      conv_lhs => rw [ha1']
                      conv_lhs => rw [ha2']
                      rw [hd]
                      simp [List.append_assoc]
                    have hseg : SegOf r2 (c1 :: c2 :: t) := by
                      refine ⟨c1 :: c2 :: (ha1 ++ ha2 ++ [c3]), [], ?_⟩
                      rw [hr2]
                      simp [List.append_assoc]
                    refine ⟨hout.1, segOf_trans hout.2.1 hseg, ?_⟩
                    obtain ⟨x, hx⟩ := hout.2.2
                    refine ⟨c1 :: c2 :: (ha1 ++ ha2 ++ [c3]) ++ x, ?_⟩
                    rw [show c1 :: c2 :: t = (c1 :: c2 :: (ha1 ++ ha2 ++ [c3])) ++ r2 from by
                      rw [hr2] ; simp [List.append_assoc]]
                    rw [hx]
                    simp [List.append_assoc]

theorem scan_out :
    ∀ (N : Nat) (s : List Char), s.length ≤ N → ∀ pr ∈ scanDecls s,
      (∀ c ∈ pr.2, ¬ c = ';') ∧ trimJS pr.2 = pr.2 ∧ SegOf pr.2 s := by
  intro N
  induction N with
  | zero =>
      intro s hlen pr hpr
      have hs : s = [] := List.length_eq_zero.mp (Nat.le_zero.mp hlen)
      rw [hs, scanDecls_nil] at hpr
      exact absurd hpr (List.not_mem_nil pr)
  | succ N ih =>
      intro s hlen pr hpr
      cases s with
      | nil =>
          rw [scanDecls_nil] at hpr
          exact absurd hpr (List.not_mem_nil pr)
      | cons c cs =>
          simp only [List.length_cons] at hlen
          cases hm : matchDeclAt (c :: cs) with
          | none =>
              rw [scanDecls_cons_none hm] at hpr
              have hres := ih cs (by omega) pr hpr
              exact ⟨hres.1, hres.2.1,
                segOf_trans hres.2.2 ⟨[c], [], by simp⟩⟩
          | some r =>
              obtain ⟨nm, vraw, rest⟩ := r
              rw [scanDecls_cons_some hm] at hpr
              obtain ⟨hsemi, hseg, hsuf⟩ := matchDeclAt_out hm
              rcases List.mem_cons.mp hpr with he | hpr2
              · subst he
                refine ⟨?_, trimJS_idem vraw, ?_⟩
                · intro ch hch
                  have hch2 : ch ∈ vraw := by
                    obtain ⟨a, b, hab⟩ := trimJS_decomp vraw
                    rw [hab]
                    simp only [List.mem_append]
                    exact Or.inl (Or.inr hch)
                  exact hsemi ch hch2
                · exact segOf_trans ⟨_, _, (trimJS_decomp vraw).choose_spec.choose_spec⟩ hseg
              · have hlt : rest.length < cs.length + 1 := matchDeclAt_rest_lt hm
                have hres := ih rest (by omega) pr hpr2
                obtain ⟨x, hx⟩ := hsuf
                exact ⟨hres.1, hres.2.1,
                  segOf_trans hres.2.2 ⟨x, [], by rw [hx] ; simp⟩⟩

-- Facts about accepted declarations -----------------------------------------

theorem validators_reject_empty :
    ∀ e ∈ PROPERTY_VALIDATORS, e.2 [] = false := by decide

theorem valid_pr_name {nm v : List Char} (h : validateProperty nm v = none) :
    nm ∈ allowedNames ∧ v ≠ [] := by
  rw [validateProperty] at h
  cases hf : PROPERTY_VALIDATORS.find? (fun e => e.1 == nm) with
  | none =>
      simp only [hf] at h
      exact Option.noConfusion h
  | some e =>
      simp only [hf] at h
      by_cases hv : e.2 v = true
      · have hc := List.find?_some hf
        have hmem := List.mem_of_find?_eq_some hf
        have he1 : e.1 = nm := by simpa using hc
        constructor
        · rw [← he1]
          exact List.mem_map_of_mem (fun x => x.1) hmem
        · intro hve
          rw [hve] at hv
          rw [validators_reject_empty e hmem] at hv
          exact Bool.noConfusion hv
      · rw [if_neg hv] at h
        exact Option.noConfusion h


-- Re-parsing the rebuilt stylesheet -----------------------------------------

theorem takeWhile_stop {q : Char → Bool} {u : List Char}
    (hu : ∀ c ∈ u, q c = true) {b : Char} (hb : q b = false) (z : List Char) :
    (u ++ b :: z).takeWhile q = u ∧ (u ++ b :: z).dropWhile q = b :: z := by
  induction u with
  | nil =>
      rw [List.nil_append]
      constructor
      · rw [List.takeWhile_cons_of_neg (by rw [hb] ; exact Bool.false_ne_true)]
      · rw [List.dropWhile_cons_of_neg (by rw [hb] ; exact Bool.false_ne_true)]
  | cons a as ih =>
      have ha : q a = true := hu a (by simp)
      have ih2 := ih (fun c hc => hu c (by simp [hc]))
      rw [List.cons_append]
      constructor
      · rw [List.takeWhile_cons_of_pos ha, ih2.1]
      · rw [List.dropWhile_cons_of_pos ha, ih2.2]

theorem trim_fix_head {v : List Char} {d : Char} {v2 : List Char}
    (hfix : trimJS v = v) (hv : v = d :: v2) : wsJS d = false := by
  have h1 := trimJS_dropWhile_fix v
  rw [hfix, hv] at h1
  cases hd : wsJS d with
  | false => rfl
  | true =>
      exfalso
      rw [List.dropWhile_cons_of_pos hd] at h1
      have hlen := congrArg List.length h1
      have hle := len_dropWhile_le wsJS v2
      simp only [List.length_cons] at hlen
      omega

theorem matchDeclAt_head_ne {c : Char} (hc : ¬ c = '-') (u : List Char) :
    matchDeclAt (c :: u) = none := by
  cases u with
  | nil => rfl
  | cons c2 t =>
      simp only [matchDeclAt]
      rw [if_neg (fun h12 => hc h12.1)]

theorem matchDecl_line {body v G : List Char} (hb : body ≠ [])
    (hbw : ∀ c ∈ body, wordDash c = true) {d : Char} {v2 : List Char}
    (hv : v = d :: v2) (hdw : wsJS d = false)
    (hsemi : ∀ c ∈ v, ¬ c = ';') :
    matchDeclAt ('-' :: '-' :: (body ++ ':' :: ' ' :: (v ++ ';' :: G))) =
      some ('-' :: '-' :: body, v, G) := by
  subst hv
  have hcolon : wordDash ':' = false := by decide
  have hsplit := takeWhile_stop hbw hcolon (' ' :: ((d :: v2) ++ ';' :: G))
  have hwsc : ¬ wsJS ':' = true := by decide
  have hdne : ¬ d = ';' := hsemi d (by simp)
  have hac : afterColon (' ' :: ((d :: v2) ++ ';' :: G)) = some (d :: v2, G) := by
    have hvsemi : ∀ c ∈ d :: v2, (fun x => !(x == ';')) c = true := by
      intro c hc
      simp only [Bool.not_eq_true', beq_eq_false_iff_ne, ne_eq]
      exact hsemi c hc
    have hstop : (fun x => !(x == ';')) ';' = false := by decide
    have hsplit2 := takeWhile_stop hvsemi hstop G
    rw [List.cons_append] at hsplit2
    have hscrut : List.dropWhile wsJS (' ' :: ((d :: v2) ++ ';' :: G)) =
        d :: (v2 ++ ';' :: G) := by
      rw [List.cons_append]
      rw [List.dropWhile_cons_of_pos (by decide)]
      rw [List.dropWhile_cons_of_neg (by rw [hdw] ; exact Bool.false_ne_true)]
    simp only [afterColon, hscrut]
    rw [if_neg hdne]
    rw [hsplit2.2]
    rw [if_neg (by simp : ¬ ((';' :: G : List Char) = []))]
    rw [hsplit2.1]
    rfl
  simp only [matchDeclAt, hsplit.1, hsplit.2]
  rw [if_neg hb]
  rw [List.dropWhile_cons_of_neg hwsc]
  simp only [hac]
  simp

theorem scan_glue (pairs : List (List Char × List Char))
    (h : ∀ pr ∈ pairs, pr.1 ∈ allowedNames ∧ pr.2 ≠ [] ∧
      trimJS pr.2 = pr.2 ∧ (∀ c ∈ pr.2, ¬ c = ';')) :
    scanDecls (linesGlue pairs) = pairs := by
  induction pairs with
  | nil =>
      rw [show linesGlue [] = ['\n', rb] from rfl]
      rw [scanDecls_cons_none (matchDeclAt_head_ne (by decide) _)]
      rw [scanDecls_cons_none (matchDeclAt_head_ne (by decide) _)]
      exact scanDecls_nil
  | cons pr rest ih =>
      obtain ⟨nm, v⟩ := pr
      obtain ⟨hnm, hvne, hvfix, hvsemi⟩ := h (nm, v) (by simp)
      have hshp := names_shape nm hnm
      have hnmeq : nm = '-' :: '-' :: nm.drop 2 := by
        conv_lhs => rw [← List.take_append_drop 2 nm, hshp.1]
        rfl
      have hbw : ∀ c ∈ nm.drop 2, wordDash c = true := by
        intro c hc
        refine names_wd nm hnm c ?_
        rw [hnmeq]
        simp [hc]
      obtain ⟨d, v2, hv⟩ := List.exists_cons_of_ne_nil hvne
      have hdw : wsJS d = false := trim_fix_head hvfix hv
      have hshape : linesGlue ((nm, v) :: rest) =
          '\n' :: ' ' :: ' ' ::
            ('-' :: '-' :: (nm.drop 2 ++ ':' :: ' ' :: (v ++ ';' :: linesGlue rest))) := by
        rw [show linesGlue ((nm, v) :: rest) =
          '\n' :: (lineOf (nm, v) ++ linesGlue rest) from rfl, lineOf]
        conv_lhs => rw [show ((nm, v) : List Char × List Char).1 = nm from rfl,
          show ((nm, v) : List Char × List Char).2 = v from rfl]
        conv_lhs => rw [hnmeq]
        simp [List.append_assoc]
      rw [hshape]
      rw [scanDecls_cons_none (matchDeclAt_head_ne (by decide) _)]
      rw [scanDecls_cons_none (matchDeclAt_head_ne (by decide) _)]
      rw [scanDecls_cons_none (matchDeclAt_head_ne (by decide) _)]
      rw [scanDecls_cons_some (matchDecl_line hshp.2 hbw hv hdw hvsemi)]
      rw [hvfix, ← hnmeq]
      rw [ih (fun q hq => h q (by simp [hq]))]

theorem parse_rebuild (pairs : List (List Char × List Char))
    (h : ∀ pr ∈ pairs, pr.1 ∈ allowedNames ∧ pr.2 ≠ [] ∧
      trimJS pr.2 = pr.2 ∧ (∀ c ∈ pr.2, ¬ c = ';')) :
    parseCustomProperties (rebuildCSS pairs) = pairs := by
  cases pairs with
  | nil => rfl
  | cons pr0 rest =>
      rw [parseCustomProperties, rebuild_glue]
      rw [scanDecls_cons_none (matchDeclAt_head_ne (by decide) _)]
      rw [scanDecls_cons_none (matchDeclAt_head_ne (by decide) _)]
      rw [scanDecls_cons_none (matchDeclAt_head_ne (by decide) _)]
      rw [scanDecls_cons_none (matchDeclAt_head_ne (by decide) _)]
      rw [scanDecls_cons_none (matchDeclAt_head_ne (by decide) _)]
      rw [scanDecls_cons_none (matchDeclAt_head_ne (by decide) _)]
      rw [scanDecls_cons_none (matchDeclAt_head_ne (by decide) _)]
      exact scan_glue (pr0 :: rest) h


-- C2: idempotence of sanitizeCSS on its own output --------------------------

theorem pairs_refilter {l : List (List Char × List Char)}
    (h : ∀ pr ∈ l, validateProperty pr.1 pr.2 = none) :
    l.filter (fun pr => (validateProperty pr.1 pr.2).isNone) = l ∧
    l.filter (fun pr => (validateProperty pr.1 pr.2).isSome) = [] ∧
    l.filterMap (fun pr => (validateProperty pr.1 pr.2).map
      (fun e => (pr.1, pr.2, e))) = [] := by
  induction l with
  | nil => exact ⟨rfl, rfl, rfl⟩
  | cons a t ih =>
      have ha := h a (by simp)
      have iht := ih (fun q hq => h q (by simp [hq]))
      refine ⟨?_, ?_, ?_⟩
      · rw [List.filter_cons_of_pos (by rw [ha] ; rfl)]
        rw [iht.1]
      · rw [List.filter_cons_of_neg (by rw [ha] ; simp)]
        exact iht.2.1
      · rw [List.filterMap_cons_none (by rw [ha] ; rfl)]
        exact iht.2.2

theorem filtered_pairs_good {s : List Char} (hdf : DangerFree s) :
    ∀ pr ∈ (parseCustomProperties s).filter
        (fun pr => (validateProperty pr.1 pr.2).isNone),
      (pr.1 ∈ allowedNames ∧ pr.2 ≠ [] ∧ trimJS pr.2 = pr.2 ∧
        (∀ c ∈ pr.2, ¬ c = ';')) ∧ DangerFree pr.2 ∧
      validateProperty pr.1 pr.2 = none := by
  intro pr hpr
  obtain ⟨hmem, hvalid⟩ := List.mem_filter.mp hpr
  have hscan := scan_out (s.length) s (Nat.le_refl _) pr hmem
  have hval : validateProperty pr.1 pr.2 = none := by
    simpa [Option.isNone_iff_eq_none] using hvalid
  obtain ⟨hnm, hne⟩ := valid_pr_name hval
  exact ⟨⟨hnm, hne, hscan.2.1, hscan.1⟩, dangerFree_seg hscan.2.2 hdf, hval⟩

/-- **C2** — `sanitizeCSS` is idempotent on its own output: whenever a call
from the module-initial regex state succeeds, the regex state is back at its
initial value, and calling `sanitizeCSS` again on the returned `css` string
yields a byte-identical `css`, an empty `removedProperties` list and an
empty `sanitizedValues` list. -/
theorem c2_sanitize_idempotent (s : List Char) (r : SanitizeResult)
    (st2 : List Nat) (h : sanitizeCSSSt initState s = (Except.ok r, st2)) :
    st2 = initState ∧
      sanitizeCSSSt initState r.css =
        (Except.ok ⟨r.css, [], []⟩, initState) := by
  rw [sanitizeCSSSt] at h
  split at h
  · exact Except.noConfusion (congrArg Prod.fst h)
  · rename_i st1 hck
    injection h with hfst hsnd
    injection hfst with h2
    have hst12 : st1 = st2 := hsnd
    have hnone : (checkDangerousPatternsSt initState s).1 = none := by
      rw [hck]
    have hdf : DangerFree s := (checkSt_init_none_iff s).mp hnone
    have hst1i : st1 = initState := by
      have hc := checkSt_init_clean hnone
      rw [hck] at hc
      exact hc
    have hgood := filtered_pairs_good hdf
    refine ⟨by rw [← hst12, hst1i], ?_⟩
    rw [← h2]
    have hcss : (sanitizeCore (parseCustomProperties s)).css =
        rebuildCSS ((parseCustomProperties s).filter
          (fun pr => (validateProperty pr.1 pr.2).isNone)) := rfl
    rw [hcss]
    have hdf2 : DangerFree (rebuildCSS ((parseCustomProperties s).filter
        (fun pr => (validateProperty pr.1 pr.2).isNone))) :=
      rebuild_clean _ (fun pr hpr =>
        ⟨(hgood pr hpr).1.1, (hgood pr hpr).2.1⟩)
    have hnone2 := (checkSt_init_none_iff _).mpr hdf2
    have hclean2 := checkSt_init_clean hnone2
    rw [sanitizeCSSSt]
    cases hck2 : checkDangerousPatternsSt initState
        (rebuildCSS ((parseCustomProperties s).filter
          (fun pr => (validateProperty pr.1 pr.2).isNone))) with
    | mk o2 stx =>
        rw [hck2] at hnone2 hclean2
        have ho2 : o2 = none := hnone2
        have hstx : stx = initState := hclean2
        subst ho2
        subst hstx
        rw [show parseCustomProperties
            (rebuildCSS ((parseCustomProperties s).filter
              (fun pr => (validateProperty pr.1 pr.2).isNone))) =
            (parseCustomProperties s).filter
              (fun pr => (validateProperty pr.1 pr.2).isNone) from
          parse_rebuild _ (fun pr hpr => (hgood pr hpr).1)]
        have hre := pairs_refilter (l := (parseCustomProperties s).filter
          (fun pr => (validateProperty pr.1 pr.2).isNone))
          (fun pr hpr => (hgood pr hpr).2.2)
        rw [show sanitizeCore ((parseCustomProperties s).filter
            (fun pr => (validateProperty pr.1 pr.2).isNone)) =
            ⟨rebuildCSS ((parseCustomProperties s).filter
              (fun pr => (validateProperty pr.1 pr.2).isNone)), [], []⟩ from by
          rw [sanitizeCore, hre.1, hre.2.1, hre.2.2, List.map_nil]]

/-- Witness for C2: sanitizing `--color-bg:#fff;` succeeds with the rebuilt
`:root` block, and sanitizing that output again returns it unchanged with
nothing removed. -/
theorem c2_sanitize_idempotent_witness :
    initState = initState ∧
      sanitizeCSSSt initState
          (":root \x7b\n  --color-bg: #fff;\n\x7d".toList) =
        (Except.ok ⟨":root \x7b\n  --color-bg: #fff;\n\x7d".toList, [], []⟩,
          initState) :=
  c2_sanitize_idempotent ("--color-bg:#fff;".toList)
    (sanitizeCore (parseCustomProperties ("--color-bg:#fff;".toList)))
    initState (by rfl)


-- =========================================================================
-- parseThemeResponse: CSS fence extraction
-- (src/src/server/lib/theme-prompts.ts)
-- =========================================================================

/-- Exact prefix test for a literal pattern. -/
def listPfx : List Char → List Char → Bool
  | [], _ => true
  | _ :: _, [] => false
  | p :: ps, c :: cs => (c == p) && listPfx ps cs

/-- Split around the leftmost occurrence of a literal pattern: returns the
text before the occurrence and the text after it. -/
def splitFirst (pat : List Char) : List Char → Option (List Char × List Char)
  | [] => if listPfx pat [] then some ([], []) else none
  | c :: cs =>
      if listPfx pat (c :: cs) then some ([], (c :: cs).drop pat.length)
      else
        match splitFirst pat cs with
        | some r => some (c :: r.1, r.2)
        | none => none

def msgNoCSS : List Char := "No CSS block found in response".toList

def msgNotRoot : List Char :=
  "CSS does not contain :root or custom properties".toList

/-- The stylesheet-extraction slice of `parseThemeResponse`: the regex
match of `(three backticks)css\s*([\s\S]*?)(three backticks)` — the literal
tag, a greedy whitespace run, a lazy capture up to the first closing
fence — then `.trim()` and the `:root`/`--` sanity check.  `Except.ok`
carries the extracted css, `Except.error` the message of the structured
failure. -/
def parseThemeResponseCSS (response : List Char) :
    Except (List Char) (List Char) :=
  match splitFirst "```css".toList response with
  | none => Except.error msgNoCSS
  | some (_, rest) =>
      match splitFirst "```".toList
          (rest.drop (rest.takeWhile wsJS).length) with
      | none => Except.error msgNoCSS
      | some (css0, _) =>
          if (splitFirst ":root".toList (trimJS css0)).isSome ||
              (splitFirst "--".toList (trimJS css0)).isSome then
            Except.ok (trimJS css0)
          else Except.error msgNotRoot

theorem listPfx_iff (pat : List Char) :
    ∀ s, listPfx pat s = true ↔ ∃ r, s = pat ++ r := by
  induction pat with
  | nil =>
      intro s
      constructor
      · intro _
        exact ⟨s, rfl⟩
      · intro _
        rfl
  | cons p ps ih =>
      intro s
      cases s with
      | nil =>
          simp [listPfx]
      | cons c cs =>
          rw [listPfx, Bool.and_eq_true, beq_iff_eq]
          constructor
          · rintro ⟨hc, hp⟩
            obtain ⟨r, hr⟩ := (ih cs).mp hp
            exact ⟨r, by rw [hc, hr] ; rfl⟩
          · rintro ⟨r, hr⟩
            rw [List.cons_append] at hr
            injection hr with h1 h2
            exact ⟨h1, (ih cs).mpr ⟨r, h2⟩⟩

theorem splitFirst_sound {pat : List Char} :
    ∀ {s a b : List Char}, splitFirst pat s = some (a, b) →
      s = a ++ pat ++ b := by
  intro s
  induction s with
  | nil =>
      intro a b h
      rw [splitFirst] at h
      by_cases hp : listPfx pat [] = true
      · rw [if_pos hp] at h
        injection h with h1
        injection h1 with ha hb
        obtain ⟨r, hr⟩ := (listPfx_iff pat []).mp hp
        have h2 := hr.symm
        rw [List.append_eq_nil] at h2
        rw [← ha, ← hb, List.nil_append, h2.1]
        rfl
      · rw [if_neg hp] at h
        exact Option.noConfusion h
  | cons c cs ih =>
      intro a b h
      rw [splitFirst] at h
      by_cases hp : listPfx pat (c :: cs) = true
      · rw [if_pos hp] at h
        injection h with h1
        injection h1 with ha hb
        obtain ⟨r, hr⟩ := (listPfx_iff pat (c :: cs)).mp hp
        rw [← ha, ← hb, List.nil_append]
        conv_lhs => rw [hr]
        rw [hr, List.drop_left]
      · rw [if_neg hp] at h
        cases hsf : splitFirst pat cs with
        | none =>
            rw [hsf] at h
            exact Option.noConfusion h
        | some r =>
            rw [hsf] at h
            injection h with h1
            injection h1 with ha hb
            have hcs := ih (a := r.1) (b := r.2) (by rw [hsf])
            rw [← ha, ← hb]
            conv_lhs => rw [hcs]
            simp

theorem splitFirst_min {pat : List Char} :
    ∀ {s a b : List Char}, splitFirst pat s = some (a, b) →
      ∀ a2 b2, s = a2 ++ pat ++ b2 → a.length ≤ a2.length := by
  intro s
  induction s with
  | nil =>
      intro a b h a2 b2 heq
      rw [splitFirst] at h
      by_cases hp : listPfx pat [] = true
      · rw [if_pos hp] at h
        injection h with h1
        injection h1 with ha hb
        rw [← ha]
        simp
      · rw [if_neg hp] at h
        exact Option.noConfusion h
  | cons c cs ih =>
      intro a b h a2 b2 heq
      rw [splitFirst] at h
      by_cases hp : listPfx pat (c :: cs) = true
      · rw [if_pos hp] at h
        injection h with h1
        injection h1 with ha hb
        rw [← ha]
        simp
      · rw [if_neg hp] at h
        cases hsf : splitFirst pat cs with
        | none =>
            rw [hsf] at h
            exact Option.noConfusion h
        | some r =>
            rw [hsf] at h
            injection h with h1
            injection h1 with ha hb
            cases a2 with
            | nil =>
                exfalso
                rw [List.nil_append] at heq
                exact hp ((listPfx_iff _ _).mpr ⟨b2, heq⟩)
            | cons d a2t =>
                rw [List.cons_append, List.cons_append] at heq
                injection heq with h1 h2
                have hle := ih (a := r.1) (b := r.2) (by rw [hsf]) a2t b2 h2
                rw [← ha]
                simp only [List.length_cons]
                omega

theorem splitFirst_none {pat : List Char} :
    ∀ {s : List Char}, splitFirst pat s = none → ∀ a b, s ≠ a ++ pat ++ b := by
  intro s
  induction s with
  | nil =>
      intro h a b heq
      rw [splitFirst] at h
      by_cases hp : listPfx pat [] = true
      · rw [if_pos hp] at h
        exact Option.noConfusion h
      · have h2 := heq.symm
        rw [List.append_assoc, List.append_eq_nil] at h2
        obtain ⟨ha, hpb⟩ := h2
        rw [List.append_eq_nil] at hpb
        exact hp ((listPfx_iff _ _).mpr ⟨[], by rw [hpb.1] ; rfl⟩)
  | cons c cs ih =>
      intro h a b heq
      rw [splitFirst] at h
      by_cases hp : listPfx pat (c :: cs) = true
      · rw [if_pos hp] at h
        exact Option.noConfusion h
      · rw [if_neg hp] at h
        cases hsf : splitFirst pat cs with
        | some r =>
            rw [hsf] at h
            exact Option.noConfusion h
        | none =>
            cases a with
            | nil =>
                rw [List.nil_append] at heq
                exact hp ((listPfx_iff _ _).mpr ⟨b, heq⟩)
            | cons d at2 =>
                rw [List.cons_append, List.cons_append] at heq
                injection heq with h1 h2
                exact ih hsf at2 b h2

theorem seg_of_drop {L : List Char} {i : Nat} {pat z : List Char}
    (h : L.drop i = pat ++ z) {base : Nat} (hb : base ≤ i) :
    ∃ u v, L.drop base = u ++ pat ++ v := by
  have h1 : (L.drop base).drop (i - base) = pat ++ z := by
    rw [List.drop_drop]
    rw [show base + (i - base) = i from by omega]
    exact h
  refine ⟨(L.drop base).take (i - base), z, ?_⟩
  conv_lhs => rw [← List.take_append_drop (i - base) (L.drop base)]
  rw [h1]
  simp [List.append_assoc]


theorem closing_in_rest {response x0 rest x y z : List Char}
    (h0 : response = x0 ++ "```css".toList ++ rest)
    (hmin : ∀ a2 b2, response = a2 ++ "```css".toList ++ b2 →
      x0.length ≤ a2.length)
    (hdec : response = x ++ "```css".toList ++ y ++ "```".toList ++ z) :
    ∃ u v, rest = u ++ "```".toList ++ v := by
  have hx : x0.length ≤ x.length :=
    hmin x (y ++ "```".toList ++ z) (by rw [hdec] ; simp [List.append_assoc])
  have hi : response.drop ((x ++ "```css".toList ++ y).length) =
      "```".toList ++ z := by
    rw [show response = (x ++ "```css".toList ++ y) ++ ("```".toList ++ z) from
      by rw [hdec] ; simp [List.append_assoc]]
    rw [List.drop_left]
  have hbase : response.drop ((x0 ++ "```css".toList).length) = rest := by
    rw [show response = (x0 ++ "```css".toList) ++ rest from by rw [h0]]
    rw [List.drop_left]
  have hb : (x0 ++ "```css".toList).length ≤
      (x ++ "```css".toList ++ y).length := by
    simp only [List.length_append]
    omega
  obtain ⟨u, v, huv⟩ := seg_of_drop hi hb
  rw [hbase] at huv
  exact ⟨u, v, huv⟩

theorem closing_in_r {rest u v : List Char}
    (h : rest = u ++ "```".toList ++ v) :
    ∃ u2, rest.drop (rest.takeWhile wsJS).length =
      u2 ++ "```".toList ++ v := by
  have hws : ∀ c ∈ rest.takeWhile wsJS, wsJS c = true :=
    fun c hc => List.mem_takeWhile_imp hc
  have heq : rest.takeWhile wsJS ++ rest.dropWhile wsJS =
      u ++ '`' :: ("``".toList ++ v) := by
    rw [List.takeWhile_append_dropWhile, h]
    simp [List.append_assoc]
  obtain ⟨ys, hu, hr⟩ := split_stop heq hws (by decide : ¬ wsJS '`' = true)
  rw [drop_takeWhile_len]
  refine ⟨ys, by rw [hr] ; simp [show "``".toList = ['`', '`'] from rfl,
    show "```".toList = ['`', '`', '`'] from rfl, List.append_assoc]⟩

-- Branch equations of the extraction ----------------------------------------

theorem parseCSS_eq_noopen {response : List Char}
    (h1 : splitFirst "```css".toList response = none) :
    parseThemeResponseCSS response = Except.error msgNoCSS := by
  rw [parseThemeResponseCSS, h1]

theorem parseCSS_eq_noclose {response x0 rest : List Char}
    (h1 : splitFirst "```css".toList response = some (x0, rest))
    (h2 : splitFirst "```".toList
      (rest.drop (rest.takeWhile wsJS).length) = none) :
    parseThemeResponseCSS response = Except.error msgNoCSS := by
  rw [parseThemeResponseCSS, h1]
  show (match splitFirst "```".toList
      (rest.drop (rest.takeWhile wsJS).length) with
    | none => Except.error msgNoCSS
    | some (css0, _) =>
        if (splitFirst ":root".toList (trimJS css0)).isSome ||
            (splitFirst "--".toList (trimJS css0)).isSome then
          Except.ok (trimJS css0)
        else Except.error msgNotRoot) = Except.error msgNoCSS
  rw [h2]

theorem parseCSS_eq_body {response x0 rest css0 b : List Char}
    (h1 : splitFirst "```css".toList response = some (x0, rest))
    (h2 : splitFirst "```".toList
      (rest.drop (rest.takeWhile wsJS).length) = some (css0, b)) :
    parseThemeResponseCSS response =
      if (splitFirst ":root".toList (trimJS css0)).isSome ||
          (splitFirst "--".toList (trimJS css0)).isSome then
        Except.ok (trimJS css0)
      else Except.error msgNotRoot := by
  rw [parseThemeResponseCSS, h1]
  show (match splitFirst "```".toList
      (rest.drop (rest.takeWhile wsJS).length) with
    | none => Except.error msgNoCSS
    | some (css0, _) =>
        if (splitFirst ":root".toList (trimJS css0)).isSome ||
            (splitFirst "--".toList (trimJS css0)).isSome then
          Except.ok (trimJS css0)
        else Except.error msgNotRoot) = _
  rw [h2]


/-- **C7 counterexample** — A reply whose only fenced block carries no tag:
the reply is exactly an untagged fence around a `--` custom property, yet
the parser reports that no CSS block was found, so extraction is not
independent of the declared tag. -/
theorem c7_counterexample :
    parseThemeResponseCSS ("```\n--color-bg: #fff;\n```".toList) =
        Except.error msgNoCSS ∧
      "```\n--color-bg: #fff;\n```".toList =
        "```".toList ++ "\n--color-bg: #fff;\n".toList ++ "```".toList ∧
      SegOf "--".toList ("\n--color-bg: #fff;\n".toList) := by
  refine ⟨by rfl, by rfl, "\n".toList, "color-bg: #fff;\n".toList, by rfl⟩

/-- **C7 (amended)** — `parseThemeResponse` extracts the first block fenced
with the literal `css` tag: the result is the trimmed capture between the
greedy whitespace after the first ` ```css ` marker and the first following
` ``` `; the no-CSS-block error is returned exactly when the reply admits
no such tagged-and-closed decomposition; a successful extraction contains
`:root` or `--`; and every outcome is one of success, the no-CSS-block
error, or the missing-`:root`/`--` error. -/
theorem c7_fence_extraction (response : List Char) :
    ((∃ css, parseThemeResponseCSS response = Except.ok css) ∨
      parseThemeResponseCSS response = Except.error msgNoCSS ∨
      parseThemeResponseCSS response = Except.error msgNotRoot) ∧
    (parseThemeResponseCSS response = Except.error msgNoCSS ↔
      ¬ ∃ x y z, response =
        x ++ "```css".toList ++ y ++ "```".toList ++ z) ∧
    (∀ css, parseThemeResponseCSS response = Except.ok css →
      (SegOf ":root".toList css ∨ SegOf "--".toList css) ∧
      ∃ x w css0 z,
        response = x ++ "```css".toList ++ w ++ css0 ++ "```".toList ++ z ∧
        AllWs w ∧ css = trimJS css0 ∧
        (∀ u v, css0 ≠ u ++ "```".toList ++ v) ∧
        (∀ x2 y2, response = x2 ++ "```css".toList ++ y2 →
          x.length ≤ x2.length)) := by
  cases hsf1 : splitFirst "```css".toList response with
  | none =>
      have hP := parseCSS_eq_noopen hsf1
      refine ⟨Or.inr (Or.inl hP), ⟨fun _ => ?_, fun _ => hP⟩, ?_⟩
      · rintro ⟨x, y, z, hxyz⟩
        exact splitFirst_none hsf1 x (y ++ "```".toList ++ z)
          (by rw [hxyz] ; simp [List.append_assoc])
      · intro css hok
        rw [hP] at hok
        exact Except.noConfusion hok
  | some pr1 =>
      obtain ⟨x0, rest⟩ := pr1
      have h0 : response = x0 ++ "```css".toList ++ rest :=
        splitFirst_sound hsf1
      have hmin1 := splitFirst_min hsf1
      cases hsf2 : splitFirst "```".toList
          (rest.drop (rest.takeWhile wsJS).length) with
      | none =>
          have hP := parseCSS_eq_noclose hsf1 hsf2
          refine ⟨Or.inr (Or.inl hP), ⟨fun _ => ?_, fun _ => hP⟩, ?_⟩
          · rintro ⟨x, y, z, hxyz⟩
            obtain ⟨u, v, huv⟩ := closing_in_rest h0 hmin1 hxyz
            obtain ⟨u2, hu2⟩ := closing_in_r huv
            exact splitFirst_none hsf2 u2 v hu2
          · intro css hok
            rw [hP] at hok
            exact Except.noConfusion hok
      | some pr2 =>
          obtain ⟨css0, b⟩ := pr2
          have hPbody := parseCSS_eq_body hsf1 hsf2
          have h2 : rest.drop (rest.takeWhile wsJS).length =
              css0 ++ "```".toList ++ b := splitFirst_sound hsf2
          have hrest : rest =
              rest.takeWhile wsJS ++ (css0 ++ "```".toList ++ b) := by
            conv_lhs => rw [← List.takeWhile_append_dropWhile
              (p := wsJS) (l := rest)]
            rw [← drop_takeWhile_len wsJS rest, h2]
          have hdecomp : response = x0 ++ "```css".toList ++
              (rest.takeWhile wsJS) ++ css0 ++ "```".toList ++ b := by
            rw [h0]
            conv_lhs => rw [hrest]
            simp [List.append_assoc]
          by_cases hroot : ((splitFirst ":root".toList (trimJS css0)).isSome ||
              (splitFirst "--".toList (trimJS css0)).isSome) = true
          · have hP : parseThemeResponseCSS response =
                Except.ok (trimJS css0) := by
              rw [hPbody, if_pos hroot]
            refine ⟨Or.inl ⟨trimJS css0, hP⟩, ⟨?_, ?_⟩, ?_⟩
            · intro hPe
              rw [hP] at hPe
              exact Except.noConfusion hPe
            · intro hne
              exfalso
              exact hne ⟨x0, rest.takeWhile wsJS ++ css0, b,
                by rw [hdecomp] ; simp [List.append_assoc]⟩
            · intro css hok
              rw [hP] at hok
              injection hok with hcss
              refine ⟨?_, x0, rest.takeWhile wsJS, css0, b, hdecomp,
                fun c hc => List.mem_takeWhile_imp hc, hcss.symm, ?_, ?_⟩
              · rw [Bool.or_eq_true] at hroot
                rw [← hcss]
                rcases hroot with hr | hr
                · left
                  cases hsp : splitFirst ":root".toList (trimJS css0) with
                  | none =>
                      rw [hsp] at hr
                      exact absurd hr (by simp)
                  | some q =>
                      exact ⟨q.1, q.2, splitFirst_sound
                        (s := trimJS css0) (a := q.1) (b := q.2)
                        (by rw [hsp])⟩
                · right
                  cases hsp : splitFirst "--".toList (trimJS css0) with
                  | none =>
                      rw [hsp] at hr
                      exact absurd hr (by simp)
                  | some q =>
                      exact ⟨q.1, q.2, splitFirst_sound
                        (s := trimJS css0) (a := q.1) (b := q.2)
                        (by rw [hsp])⟩
              · intro u v huv
                have hminc := splitFirst_min hsf2 u (v ++ "```".toList ++ b)
                  (by rw [h2, huv] ; simp [List.append_assoc])
                have hlen := congrArg List.length huv
                simp only [List.length_append] at hlen
                simp only [show ("```".toList).length = 3 from rfl] at hlen
                omega
              · exact fun x2 y2 hx2 => hmin1 x2 y2 hx2
          · have hroot2 : ((splitFirst ":root".toList (trimJS css0)).isSome ||
                (splitFirst "--".toList (trimJS css0)).isSome) = false :=
              eq_false_of_ne_true hroot
            have hP : parseThemeResponseCSS response =
                Except.error msgNotRoot := by
              rw [hPbody, if_neg (by rw [hroot2] ; exact Bool.false_ne_true)]
            refine ⟨Or.inr (Or.inr hP), ⟨?_, ?_⟩, ?_⟩
            · intro hPe
              rw [hP] at hPe
              injection hPe with hmsg
              exact absurd hmsg (by decide)
            · intro hne
              exfalso
              exact hne ⟨x0, rest.takeWhile wsJS ++ css0, b,
                by rw [hdecomp] ; simp [List.append_assoc]⟩
            · intro css hok
              rw [hP] at hok
              exact Except.noConfusion hok

/-- Witness for C7 (amended): on a reply with a tagged fence, the parser
succeeds and the extracted stylesheet contains `:root` or `--`. -/
theorem c7_fence_extraction_witness :
    SegOf ":root".toList ("--color-bg: #fff;".toList) ∨
      SegOf "--".toList ("--color-bg: #fff;".toList) :=
  ((c7_fence_extraction
      ("reply: ```css\n--color-bg: #fff;\n``` done".toList)).2.2
    ("--color-bg: #fff;".toList) (by rfl)).1


-- =========================================================================
-- POST /api/theme/generate (src/src/server/routes/prompts.ts, themeRoute)
-- =========================================================================

/-- The slice of `ThemeGenerateResponse` (plus HTTP status) the route
produces; the theme name and fonts are omitted. -/
structure RouteResp where
  status : Nat
  success : Bool
  error : Option (List Char)
  css : Option (List Char)
  lintResults : Option CSSValidationResult
deriving DecidableEq

def msgMissingFields : List Char :=
  "Missing required fields: provider and model".toList

def msgNoSignals : List Char := "At least one signal is required".toList

def msgProviderNotEnabled (p : List Char) : List Char :=
  "Provider \"".toList ++ p ++ "\" is not enabled or configured".toList

def msgSecurityFailed (e : List Char) : List Char :=
  "CSS security check failed: ".toList ++ e

def msgNoValidProps : List Char :=
  "Generated CSS had no valid theme properties".toList

/-- The theme-generation route handler.  `enabled` abstracts
`isProviderEnabled` (the providers library is not part of this tree),
`reply` is the text returned by the LLM call, `st` the shared regex state
of the css-sanitizer module, threaded through `processCSSForTheme`.
Empty strings model absent request fields (both are falsy in the source's
checks). -/
def themeGenerateRoute (enabled : List Char → Bool) (st : List Nat)
    (provider mdl : List Char) (signals : List (List Char))
    (reply : List Char) : RouteResp × List Nat :=
  if provider = [] ∨ mdl = [] then
    (⟨400, false, some msgMissingFields, none, none⟩, st)
  else if signals = [] then
    (⟨400, false, some msgNoSignals, none, none⟩, st)
  else if enabled provider = false then
    (⟨400, false, some (msgProviderNotEnabled provider), none, none⟩, st)
  else
    match parseThemeResponseCSS reply with
    | Except.error e => (⟨400, false, some e, none, none⟩, st)
    | Except.ok css =>
        match processCSSForThemeSt st css with
        | (Except.error e, st2) =>
            (⟨400, false, some (msgSecurityFailed e), none, none⟩, st2)
        | (Except.ok out, st2) =>
            if trimJS out.1 = [] then
              (⟨400, false, some msgNoValidProps, none, some out.2.1⟩, st2)
            else
              (⟨200, true, none, some out.1, some out.2.1⟩, st2)

theorem msgNoValid_ne_security (e : List Char) :
    msgNoValidProps ≠ msgSecurityFailed e := by
  intro h
  have h2 := congrArg (List.take 4) h
  rw [show (msgSecurityFailed e).take 4 = "CSS ".toList from rfl] at h2
  exact absurd h2 (by decide)

/-- **C3 (code bug)** — A reply whose extracted stylesheet contains a
dangerous `url(` pattern exactly once does not produce the
security-specific failure: `validateCSS` consumes the shared `g`-flag
`lastIndex` when it detects the pattern, so the subsequent `sanitizeCSS`
misses it and does not throw; the route then answers with the
`Generated CSS had no valid theme properties` failure (whose message
differs from every security-check message), while the claim requires a
detected dangerous pattern to yield the security-specific error. -/
theorem c3_security_error_lost :
    parseThemeResponseCSS ("```css\n--x: url(evil);\n```".toList) =
        Except.ok ("--x: url(evil);".toList) ∧
      (∃ p ∈ dangerousPatterns, OccursIn p ("--x: url(evil);".toList)) ∧
      themeGenerateRoute (fun _ => true) initState ("openai".toList)
          ("gpt-4o".toList) [("time-of-day".toList)]
          ("```css\n--x: url(evil);\n```".toList) =
        (⟨400, false, some msgNoValidProps, none,
          some ⟨false, [],
            ["CSS contains forbidden pattern: url\\s*\\(".toList]⟩⟩,
          initState) ∧
      (∀ e, msgNoValidProps ≠ msgSecurityFailed e) := by
  refine ⟨by rfl, ?_, by rfl, msgNoValid_ne_security⟩
  refine ⟨⟨"url".toList, ['(']⟩, by decide,
    "--x: ".toList, "url(evil);".toList, by decide,
    "url".toList, [], ['('], "evil);".toList, by decide, by decide,
    fun c hc => absurd hc (List.not_mem_nil c), by decide, by decide⟩

end ThemeKit
